import Mathlib

/-!
Verification of the task-tracker bot (`tracker_bot.py`).

The Python source is shallowly embedded: mutable per-instance state
(`RateLimiter.requests`, `StateManager.store`) becomes explicit state
passed in and returned; `time.time()` values become rational numbers
supplied as a `now` argument; text is modelled as `List Char` (Python
strings index unicode code points, as does `List Char`); Python `set`
objects become `Finset ℕ` (plus, for the aliasing claim, an explicit
heap of set objects); network I/O of the Telegram client is modelled by
an oracle giving the outcome of each attempt and by an accumulated list
of outbound calls.
-/

set_option maxHeartbeats 4000000
set_option maxRecDepth 20000

namespace TrackerBot

/-! ### Constants from the source configuration block -/

def MAX_STATE_SIZE : ℕ := 1000
def STATE_TTL_SECONDS : ℚ := 86400
def MAX_TASK_DISPLAY_LENGTH : ℕ := 30
def MAX_CALLBACK_DATA_BYTES : ℕ := 64
def MAX_MESSAGE_LENGTH : ℕ := 4000
def MAX_RETRIES : ℕ := 3

/-! ### Text utilities (Python string primitives used by the bot) -/

/-- Python's whitespace class for the characters that can occur here:
space, tab and the ASCII line/page separators. -/
def isSpace (c : Char) : Bool :=
  c = ' ' || c = '\t' || c = '\n' || c = '\r' || c = '\x0b' || c = '\x0c'

/-- `str.strip()`: drop whitespace from both ends. -/
def pyStrip (l : List Char) : List Char :=
  ((l.dropWhile isSpace).reverse.dropWhile isSpace).reverse

/-- Line-break characters recognised by `str.splitlines()`. -/
def isLineBreak (c : Char) : Bool :=
  c = '\n' || c = '\r' || c = '\x0b' || c = '\x0c' ||
  c = '\x1c' || c = '\x1d' || c = '\x1e' || c = '\x85' ||
  c = '\u2028' || c = '\u2029'

def splitLinesAux : List Char → List Char → List (List Char)
  | [], acc => [acc.reverse]
  | '\r' :: '\n' :: rest, acc => acc.reverse :: splitLinesAux rest []
  | c :: rest, acc =>
      if isLineBreak c then acc.reverse :: splitLinesAux rest []
      else splitLinesAux rest (c :: acc)

/-- `str.splitlines()`: split at line breaks; a trailing break produces no
trailing empty line. -/
def splitLines (l : List Char) : List (List Char) :=
  let r := splitLinesAux l []
  if r.getLast? = some [] then r.dropLast else r

/-- `str.split(sep)` for a single-character separator (used as
`group(1).split('\n')`). -/
def splitOnChar (sep : Char) : List Char → List (List Char)
  | [] => [[]]
  | c :: rest =>
      let r := splitOnChar sep rest
      if c = sep then [] :: r
      else match r with
        | [] => [[c]]
        | p :: ps => (c :: p) :: ps

/-- `html.escape` with the default `quote=True`. -/
def escapeChar (c : Char) : List Char :=
  if c = '&' then String.toList "&amp;"
  else if c = '<' then String.toList "&lt;"
  else if c = '>' then String.toList "&gt;"
  else if c = '"' then String.toList "&quot;"
  else if c = '\'' then String.toList "&#x27;"
  else [c]

def escapeHtml (l : List Char) : List Char := l.flatMap escapeChar

/-- `'\n'.join(pieces)`. -/
def joinNl : List (List Char) → List Char
  | [] => []
  | [p] => p
  | p :: ps => p ++ '\n' :: joinNl ps

/-- Decimal rendering of a natural number, structurally recursive on a
fuel that always suffices (`n` has at most `n + 1` digits). -/
def natStrAux : ℕ → ℕ → List Char
  | 0, _ => []
  | fuel + 1, n =>
      if n < 10 then [Char.ofNat (48 + n)]
      else natStrAux fuel (n / 10) ++ [Char.ofNat (48 + n % 10)]

/-- Python `str(i)` for the non-negative integers occurring here. -/
def natStr (n : ℕ) : List Char := natStrAux (n + 1) n

/-- UTF-8 encoded size of one character. -/
def utf8Size (c : Char) : ℕ :=
  if c.toNat < 0x80 then 1
  else if c.toNat < 0x800 then 2
  else if c.toNat < 0x10000 then 3
  else 4

/-- UTF-8 encoded size of a string, in bytes (`len(data.encode())`). -/
def utf8Len (l : List Char) : ℕ := (l.map utf8Size).sum

/-! ### RateLimiter (`tracker_bot.py` lines 68-80)

`self.requests` maps an origin key to a list of admission timestamps;
the per-key record is independent of all other keys, so `allow` is
modelled on one key's record, taking `now = time.time()` explicitly. -/

namespace RateLimiter

/-- `[t for t in self.requests.get(key, []) if now - t < 60]` -/
def prune (now : ℚ) (ts : List ℚ) : List ℚ :=
  ts.filter (fun t => decide (now - t < 60))

/-- `RateLimiter.allow`: prune the record, deny (recording nothing) when
100 or more timestamps remain, otherwise admit and append `now`. -/
def allow (now : ℚ) (ts : List ℚ) : Bool × List ℚ :=
  let pruned := prune now ts
  if 100 ≤ pruned.length then (false, pruned) else (true, pruned ++ [now])

/-- Run a sequence of calls (their `time.time()` values, in order) against
one origin's record. -/
def run : List ℚ → List ℚ → List Bool × List ℚ
  | [], ts => ([], ts)
  | c :: cs, ts =>
      let r := allow c ts
      let rr := run cs r.2
      (r.1 :: rr.1, rr.2)

end RateLimiter

/-! ### StateManager (`tracker_bot.py` lines 82-102)

`self.store` is an `OrderedDict[str, tuple[float, Set[int]]]`: keys in
recency order, least recently touched first.  It is modelled as a list
of `(key, timestamp, completionSet)` triples in that order, generic in
the key type (the source uses strings such as `"123_day"`).  All keys
inserted through `set` occur at most once, matching the dict. -/

namespace StateManager

variable {κ : Type} [DecidableEq κ]

/-- Recency-ordered store: head = least recently touched. -/
abbrev Store (κ : Type) := List (κ × ℚ × Finset ℕ)

def keys (s : Store κ) : List κ := s.map Prod.fst

/-- First entry for `key`, if any (an `OrderedDict` holds at most one). -/
def findEntry (key : κ) (s : Store κ) : Option (κ × ℚ × Finset ℕ) :=
  s.find? (fun e => decide (e.1 = key))

/-- `del self.store[key]` (removes the unique entry for `key`). -/
def eraseKey (key : κ) (s : Store κ) : Store κ :=
  s.filter (fun e => decide (e.1 ≠ key))

/-- `StateManager.get`: a live entry is moved to the recency end and a
copy of its set is returned; an expired entry is deleted; a missing key
yields the empty set.  The store after the call is returned alongside. -/
def get (now : ℚ) (key : κ) (s : Store κ) : Finset ℕ × Store κ :=
  match findEntry key s with
  | some (_, ts, state) =>
      if now - ts < STATE_TTL_SECONDS then (state, eraseKey key s ++ [(key, ts, state)])
      else (∅, eraseKey key s)
  | none => (∅, s)

/-- `StateManager.set`: evict the least-recently-touched entry when at
capacity, then write `(now, state)` under `key` and move it to the
recency end. -/
def set (now : ℚ) (key : κ) (state : Finset ℕ) (s : Store κ) : Store κ :=
  let s1 := if MAX_STATE_SIZE ≤ s.length then s.drop 1 else s
  eraseKey key s1 ++ [(key, now, state)]

/-- One store operation, for reasoning about arbitrary call sequences. -/
inductive Op (κ : Type) where
  | get (now : ℚ) (key : κ)
  | set (now : ℚ) (key : κ) (state : Finset ℕ)

def applyOp : Op κ → Store κ → Store κ
  | .get now key, s => (get now key s).2
  | .set now key st, s => set now key st s

def applyOps (ops : List (Op κ)) (s : Store κ) : Store κ :=
  ops.foldl (fun s op => applyOp op s) s

end StateManager

/-! ### The Dispatcher's toggle operation (`tracker_bot.py` lines 273-276)

```
state = await self.state.get(key)
state.symmetric_difference_update([idx])
await self.state.set(key, state)
``` -/

def toggleOp {κ : Type} [DecidableEq κ] (now : ℚ) (key : κ) (idx : ℕ)
    (s : StateManager.Store κ) : StateManager.Store κ :=
  let r := StateManager.get now key s
  StateManager.set now key (symmDiff r.1 {idx}) r.2

/-! ### Object-level model of the store (`.copy()` semantics)

To state the aliasing claim the Python `set` objects are made explicit:
a heap is a list of set objects, an object is named by its index, and
`state.copy()` allocates a fresh object with the same contents.  The
store holds object ids; callers hold ids of the objects `get` returned
or they passed to `set`, and may mutate them in place. -/

namespace HeapModel

variable {κ : Type} [DecidableEq κ]

abbrev Heap := List (Finset ℕ)

/-- Contents of the object named `i`. -/
def readH (h : Heap) (i : ℕ) : Finset ℕ := h.getD i ∅

/-- Allocate a fresh object holding `v`; its id is the old heap size. -/
def allocH (h : Heap) (v : Finset ℕ) : Heap × ℕ := (h ++ [v], h.length)

/-- In-place mutation of the object named `i` (any caller-side update of
a set it holds a reference to). -/
def mutateH (h : Heap) (i : ℕ) (v : Finset ℕ) : Heap := h.set i v

/-- Store whose values are object ids. -/
abbrev HStore (κ : Type) := List (κ × ℚ × ℕ)

def hkeys (s : HStore κ) : List κ := s.map Prod.fst

def hfind (key : κ) (s : HStore κ) : Option (κ × ℚ × ℕ) :=
  s.find? (fun e => decide (e.1 = key))

def herase (key : κ) (s : HStore κ) : HStore κ :=
  s.filter (fun e => decide (e.1 ≠ key))

/-- `StateManager.get`, heap level: `return state.copy()` allocates and
returns a fresh object; `return set()` likewise builds a new set. -/
def hget (now : ℚ) (key : κ) (h : Heap) (s : HStore κ) :
    ℕ × Heap × HStore κ :=
  match hfind key s with
  | some (_, ts, i) =>
      if now - ts < STATE_TTL_SECONDS then
        let a := allocH h (readH h i)
        (a.2, a.1, herase key s ++ [(key, ts, i)])
      else
        let a := allocH h ∅
        (a.2, a.1, herase key s)
  | none =>
      let a := allocH h ∅
      (a.2, a.1, s)

/-- `StateManager.set`, heap level: `state.copy()` is stored, never the
caller's object `arg` itself. -/
def hset (now : ℚ) (key : κ) (arg : ℕ) (h : Heap) (s : HStore κ) :
    Heap × HStore κ :=
  let s1 := if MAX_STATE_SIZE ≤ s.length then s.drop 1 else s
  let a := allocH h (readH h arg)
  (a.1, herase key s1 ++ [(key, now, a.2)])

/-- The contents a later `get` of `key` would hand back (the value of a
fresh copy of the stored object, or `∅`). -/
def observe (now : ℚ) (key : κ) (h : Heap) (s : HStore κ) : Finset ℕ :=
  match hfind key s with
  | some (_, ts, i) => if now - ts < STATE_TTL_SECONDS then readH h i else ∅
  | none => ∅

/-- All object ids reachable from the store. -/
def storedIds (s : HStore κ) : List ℕ := s.map (fun e => e.2.2)

/-- Well-formedness: every stored id names an allocated object. -/
def wf (h : Heap) (s : HStore κ) : Prop := ∀ i ∈ storedIds s, i < h.length

end HeapModel

/-! ### TelegramAPIClient.request (`tracker_bot.py` lines 110-125)

Each attempt's network outcome is supplied by an oracle: either the
POST/`resp.json()` raises (`exc`), or a JSON reply arrives carrying the
`ok` flag and a result.  The model returns the result (`none` when the
method gives up) together with the number of attempts performed; logging
and the backoff sleeps are I/O effects outside the model. -/

inductive TgOutcome where
  | exc
  | resp (ok : Bool) (result : ℕ)
deriving DecidableEq

namespace TelegramAPIClient

/-- `for i in range(MAX_RETRIES)` with `i = MAX_RETRIES - fuel`.  A reply
with the success flag returns its result at once; a reply without it is
logged and the loop continues; an exception sleeps (last attempt: logs)
and continues.  After the loop: `return None`. -/
def requestAux (o : ℕ → TgOutcome) : ℕ → ℕ → Option ℕ × ℕ
  | 0, i => (none, i)
  | fuel + 1, i =>
      match o i with
      | .resp true r => (some r, i + 1)
      | .resp false _ => requestAux o fuel (i + 1)
      | .exc => requestAux o fuel (i + 1)

def request (o : ℕ → TgOutcome) : Option ℕ × ℕ :=
  requestAux o MAX_RETRIES 0

end TelegramAPIClient

/-! ### Task Parser (`tracker_bot.py` lines 52-59 and 167-182)

The three `SECTION_PATTERNS` share one shape:
`(?:GLYPH\s*)?(?:WORD\s+)?CORE[OPT]?\s*:?\s*(.*?)(?=(?:STOP1|...|$))`
compiled with `IGNORECASE | DOTALL` and applied with `.search`.  Since
everything after the core is optional or lazy-with-lookahead (and the
lookahead always succeeds at end of input), a match at a position exists
iff the optional-prefix chain followed by the core matches there, the
greedy pieces never need to backtrack past the core, and the lazy group
runs from the end of the core to the first position where a stop literal
(case-insensitively) or `$` matches.  The functions below implement
exactly that search, scanning candidate start positions left to right
and trying the greedy alternatives in the order Python does. -/

/-- Unicode simple lowercasing for the alphabets appearing in the
patterns (ASCII and Cyrillic), as `re.IGNORECASE` folds them. -/
def foldChar (c : Char) : Char :=
  if 'A' ≤ c && c ≤ 'Z' then Char.ofNat (c.toNat + 32)
  else if 'А' ≤ c && c ≤ 'Я' then Char.ofNat (c.toNat + 0x20)
  else if c = 'Ё' then 'ё'
  else c

/-- Case-insensitive literal at the head of `s`. -/
def foldStarts : List Char → List Char → Bool
  | [], _ => true
  | _ :: _, [] => false
  | p :: ps, c :: cs => foldChar p = foldChar c && foldStarts ps cs

/-- Case-sensitive literal at the head of `s`. -/
def litStarts : List Char → List Char → Bool
  | [], _ => true
  | _ :: _, [] => false
  | p :: ps, c :: cs => p = c && litStarts ps cs

structure SectionPat where
  glyph : List Char
  word : List Char
  core : List Char
  coreOpt : List Char
  stop : List (List Char)

/-- `(?:☀️\s*)?(?:Дневные\s+)?[Зз]адач[аи]?\s*:?\s*(.*?)(?=(?:⛔|Нельзя|🌙|Вечерние|🎯|Цель|$))` -/
def dayPat : SectionPat :=
  { glyph := String.toList "☀️", word := String.toList "Дневные"
    core := String.toList "задач", coreOpt := String.toList "аи"
    stop := [String.toList "⛔", String.toList "Нельзя", String.toList "🌙",
             String.toList "Вечерние", String.toList "🎯", String.toList "Цель"] }

/-- `(?:⛔\s*)?(?:Нельзя\s+)?[Дд]елать\s*:?\s*(.*?)(?=(?:🌙|Вечерние|🎯|Цель|$))` -/
def cantPat : SectionPat :=
  { glyph := String.toList "⛔", word := String.toList "Нельзя"
    core := String.toList "делать", coreOpt := []
    stop := [String.toList "🌙", String.toList "Вечерние", String.toList "🎯",
             String.toList "Цель"] }

/-- `(?:🌙\s*)?(?:Вечерние\s+)?[Зз]адач[аи]?\s*:?\s*(.*?)(?=(?:🎯|Цель|$))` -/
def eveningPat : SectionPat :=
  { glyph := String.toList "🌙", word := String.toList "Вечерние"
    core := String.toList "задач", coreOpt := String.toList "аи"
    stop := [String.toList "🎯", String.toList "Цель"] }

/-- The greedy `[OPT]?` after the core stem. -/
def dropCoreOpt (p : SectionPat) : List Char → List Char
  | [] => []
  | c :: rest =>
      if p.coreOpt.any (fun oc => foldChar oc = foldChar c) then rest
      else c :: rest

/-- The greedy `:?`. -/
def dropColon : List Char → List Char
  | ':' :: rest => rest
  | s => s

/-- Match `CORE[OPT]?\s*:?\s*` at the head of `s`; returns the suffix at
which the lazy group starts. -/
def matchCore (p : SectionPat) (s : List Char) : Option (List Char) :=
  if foldStarts p.core s then
    some ((dropColon
      ((dropCoreOpt p (s.drop p.core.length)).dropWhile isSpace)).dropWhile isSpace)
  else none

/-- `(?:WORD\s+)?CORE...`: the greedy optional word first, then without. -/
def tryWordCore (p : SectionPat) (t : List Char) : Option (List Char) :=
  let withWord : Option (List Char) :=
    if foldStarts p.word t then
      match t.drop p.word.length with
      | c :: rest => if isSpace c then matchCore p ((c :: rest).dropWhile isSpace) else none
      | [] => none
    else none
  withWord.orElse (fun _ => tryWordCore0 p t)
where tryWordCore0 (p : SectionPat) (t : List Char) : Option (List Char) := matchCore p t

/-- Attempt the whole prefix-and-core chain at one position: the greedy
optional glyph first, then without it. -/
def matchAt (p : SectionPat) (s : List Char) : Option (List Char) :=
  let withGlyph : Option (List Char) :=
    if litStarts p.glyph s then tryWordCore p ((s.drop p.glyph.length).dropWhile isSpace)
    else none
  withGlyph.orElse (fun _ => tryWordCore p s)

/-- `.search`: candidate start positions left to right. -/
def searchPat (p : SectionPat) : List Char → Option (List Char)
  | [] => none
  | s@(_ :: rest) => (matchAt p s).orElse (fun _ => searchPat p rest)

/-- Does one of the stop literals (or `$`) match at this suffix? -/
def stopHere (p : SectionPat) (t : List Char) : Bool :=
  p.stop.any (fun w => foldStarts w t)

/-- The lazy group `(.*?)(?=...)`: everything up to the first position
where a stop literal or `$` (end, or just before a final newline)
matches. -/
def takeGroup (p : SectionPat) : List Char → List Char
  | [] => []
  | c :: rest =>
      if (c = '\n' && rest.isEmpty) || stopHere p (c :: rest) then []
      else c :: takeGroup p rest

/-- `SECTION_PATTERNS[sec].search(safe)`, returning `group(1)`. -/
def sectionSearch (p : SectionPat) (s : List Char) : Option (List Char) :=
  (searchPat p s).map (takeGroup p)

/-! `TASK_PATTERN = re.compile(r'•\s*(.+?)(?:\s*\([^)]+\))?\s*$')`,
applied with `.search` to each stripped line. -/

def spacesOnly (t : List Char) : Bool := t.all isSpace

/-- The optional-parenthetical branch `\s*\([^)]+\)\s*$` of the tail. -/
def parenTail (r : List Char) : Bool :=
  match r.dropWhile isSpace with
  | '(' :: rest =>
      let ins := rest.takeWhile (fun c => decide (c ≠ ')'))
      match rest.drop ins.length with
      | ')' :: rest2 => decide (1 ≤ ins.length) && spacesOnly rest2
      | _ => false
  | _ => false

/-- `(?:\s*\([^)]+\))?\s*$` at the remainder after the lazy content. -/
def tailOk (r : List Char) : Bool := parenTail r || spacesOnly r

/-- The lazy `(.+?)`: shortest non-empty content whose remainder matches
the tail. -/
def findContentAux (taken : List Char) : List Char → Option (List Char)
  | [] => none
  | c :: rest =>
      if tailOk rest then some (taken ++ [c])
      else findContentAux (taken ++ [c]) rest

def findContent (s : List Char) : Option (List Char) := findContentAux [] s

/-- The greedy `\s*` after the bullet, backtracking from the longest run
of spaces down to none, the lazy content tried inside each choice. -/
def bulletMatchAux (s : List Char) : ℕ → Option (List Char)
  | 0 => findContent s
  | n + 1 => (findContent (s.drop (n + 1))).orElse (fun _ => bulletMatchAux s n)

def bulletMatch (s : List Char) : Option (List Char) :=
  bulletMatchAux s (s.takeWhile isSpace).length

/-- `TASK_PATTERN.search(line)`, returning `group(1)`: leftmost `•` at
which the rest of the pattern matches. -/
def taskSearch : List Char → Option (List Char)
  | [] => none
  | '•' :: rest => (bulletMatch rest).orElse (fun _ => taskSearch rest)
  | _ :: rest => taskSearch rest

/-- Lines of `group(1)` that (stripped) start with the bullet and whose
task pattern matches, each task label stripped. -/
def extractSection (p : SectionPat) (safe : List Char) : List (List Char) :=
  match sectionSearch p safe with
  | none => []
  | some grp =>
      ((splitOnChar '\n' grp).map pyStrip).filterMap (fun line =>
        if litStarts [of_bullet] line then (taskSearch line).map pyStrip else none)
where of_bullet : Char := '•'

structure Tasks where
  day : List (List Char)
  cant_do : List (List Char)
  evening : List (List Char)
deriving DecidableEq

/-- `'\n'.join(html.escape(l.strip()) for l in text.splitlines() if l.strip())` -/
def safeText (text : List Char) : List Char :=
  joinNl ((((splitLines text).map pyStrip).filter (fun l => decide (l ≠ []))).map escapeHtml)

/-- `TaskTrackerBot.parse_tasks`. -/
def parse_tasks (text : List Char) : Tasks :=
  let safe := safeText text
  { day := extractSection dayPat safe
    cant_do := extractSection cantPat safe
    evening := extractSection eveningPat safe }

/-! ### Renderer (`tracker_bot.py` lines 184-224)

The per-section completion view: `handle_callback` builds `full_done` as
a dict that may lack sections, read back with `done.get(key, set())`, so
a missing section is the empty set. -/

structure Done where
  day : Finset ℕ
  cant_do : Finset ℕ
  evening : Finset ℕ
deriving DecidableEq

def emptyDone : Done := ⟨∅, ∅, ∅⟩

/-- `TaskTrackerBot.truncate`. -/
def truncate (t : List Char) : List Char :=
  if t.length ≤ MAX_TASK_DISPLAY_LENGTH then t
  else
    let cut := t.take (MAX_TASK_DISPLAY_LENGTH - 3)
    (if ' ' ∈ cut then ((cut.reverse.dropWhile (fun c => decide (c ≠ ' '))).drop 1).reverse
     else cut) ++ String.toList "..."

def emojiFor (done : Finset ℕ) (i : ℕ) : List Char :=
  if i ∈ done then String.toList "✅" else String.toList "⬜"

/-- The lines one non-empty section contributes to the message body. -/
def sectionBlock (title : List Char) (ts : List (List Char)) (done : Finset ℕ) :
    List (List Char) :=
  if ts = [] then []
  else ('\n' :: (String.toList "<b>" ++ title ++ String.toList "</b>")) ::
    ts.enum.map (fun e => emojiFor done e.1 ++ ' ' :: truncate e.2)

/-- How many enumerated indices of this section are marked done. -/
def completedCount (ts : List (List Char)) (done : Finset ℕ) : ℕ :=
  ((List.range ts.length).filter (fun i => decide (i ∈ done))).length

/-- `TaskTrackerBot.message_text`.  The progress percentage is computed
by the source as `int(completed / total * 100)` on IEEE floats; it is
modelled as the exact floor `completed * 100 / total`, which agrees
everywhere the float arithmetic is exact (in particular at 0). -/
def message_text (tasks : Tasks) (done : Done) : List Char :=
  let total := tasks.day.length + tasks.cant_do.length + tasks.evening.length
  let completed := completedCount tasks.day done.day +
    completedCount tasks.cant_do done.cant_do +
    completedCount tasks.evening done.evening
  let header := String.toList "<b>Отметь выполненные задачи:</b>" ++ ['\n']
  let blocks := sectionBlock (String.toList "ДНЕВНЫЕ ЗАДАЧИ:") tasks.day done.day ++
    sectionBlock (String.toList "НЕЛЬЗЯ ДЕЛАТЬ:") tasks.cant_do done.cant_do ++
    sectionBlock (String.toList "ВЕЧЕРНИЕ ЗАДАЧИ:") tasks.evening done.evening
  let progress : List (List Char) :=
    if total = 0 then []
    else
      let perc := completed * 100 / total
      let bar := List.replicate (perc / 10) '▓' ++ List.replicate (10 - perc / 10) '░'
      ['\n' :: (String.toList "<b>ПРОГРЕСС:</b> " ++ bar ++ ' ' :: natStr completed ++
        '/' :: natStr total ++ ' ' :: '(' :: natStr perc ++ String.toList "%)")]
  joinNl (header :: blocks ++ progress ++
    ['\n' :: String.toList "<i>Нажми на задачу → отметится</i>"])

structure Button where
  text : List Char
  cbdata : List Char
deriving DecidableEq

/-- The keyboard rows one non-empty section contributes: a `noop` label
row, then one toggle row per task with identifier `toggle_<tag>_<i>`. -/
def sectionRows (title : List Char) (tag : List Char) (ts : List (List Char))
    (done : Finset ℕ) : List (List Button) :=
  if ts = [] then []
  else [⟨title, String.toList "noop"⟩] ::
    ts.enum.map (fun e =>
      [⟨emojiFor done e.1 ++ ' ' :: natStr (e.1 + 1) ++ '.' :: ' ' :: truncate e.2,
        String.toList "toggle_" ++ tag ++ '_' :: natStr e.1⟩])

/-- `TaskTrackerBot.keyboard`. -/
def keyboard (tasks : Tasks) (done : Done) : List (List Button) :=
  sectionRows (String.toList "ДНЕВНЫЕ ЗАДАЧИ") (String.toList "day") tasks.day done.day ++
  sectionRows (String.toList "НЕЛЬЗЯ ДЕЛАТЬ") (String.toList "cant") tasks.cant_do done.cant_do ++
  sectionRows (String.toList "ВЕЧЕРНИЕ ЗАДАЧИ") (String.toList "eve") tasks.evening done.evening ++
  [[⟨String.toList "Сохранить прогресс", String.toList "save"⟩,
    ⟨String.toList "Отменить", String.toList "cancel"⟩]]

/-- All control identifiers of a rendered keyboard. -/
def keyboardIds (kb : List (List Button)) : List (List Char) :=
  kb.flatMap (fun row => row.map Button.cbdata)

/-! ### Webhook Dispatcher (`tracker_bot.py` lines 238-321)

IPv4 addresses are 32-bit naturals, networks are (address, prefix
length) pairs; the inbound JSON update is an algebraic datatype (a
`message` without a `text` field is `Update.other`); callback data is
the decoded control identifier (`toggle_<tag>_<idx>` with its numeric
index already read back, as produced by the renderer).  Every
`time.time()` read during one request is the single `now`.  Outbound
API calls are accumulated in order; their network outcomes (only
logged by the source) are not modelled. -/

def ipv4 (a b c d : ℕ) : ℕ := ((a * 256 + b) * 256 + c) * 256 + d

/-- Membership of an address in a network: equality of the top
`prefixLen` bits. -/
def inNetwork (ip : ℕ) (net : ℕ × ℕ) : Bool :=
  decide (ip / 2 ^ (32 - net.2) = net.1 / 2 ^ (32 - net.2))

/-- The allowlist from the source, `TELEGRAM_IP_RANGES`. -/
def TELEGRAM_IP_RANGES : List (ℕ × ℕ) :=
  [(ipv4 149 154 160 0, 20), (ipv4 91 108 4 0, 22), (ipv4 91 108 8 0, 22),
   (ipv4 91 108 12 0, 22), (ipv4 91 108 16 0, 22), (ipv4 91 108 20 0, 22),
   (ipv4 91 108 56 0, 22), (ipv4 91 105 192 0, 23), (ipv4 91 108 60 0, 22)]

/-- `any(ipaddress.ip_address(client_ip) in net for net in TELEGRAM_IP_RANGES)` -/
def ipAllowed (ip : ℕ) : Bool := TELEGRAM_IP_RANGES.any (inNetwork ip)

/-- `(request.headers.get('X-Forwarded-For', '').split(',')[0].strip() or
request.remote)`: the first forwarded-for entry when non-blank,
otherwise the transport peer. -/
def resolveClientIp (xff remote : List Char) : List Char :=
  let first := pyStrip (xff.takeWhile (fun c => decide (c ≠ ',')))
  if first = [] then remote else first

namespace RateLimiter

/-- `self.requests` as a whole: the per-key record read with
`.get(key, [])`, written back in place. -/
def mapAllow (now : ℚ) (key : ℕ) (m : List (ℕ × List ℚ)) :
    Bool × List (ℕ × List ℚ) :=
  let cur := ((m.find? (fun e => decide (e.1 = key))).map Prod.snd).getD []
  let r := allow now cur
  (r.1, if m.any (fun e => decide (e.1 = key))
        then m.map (fun e => if e.1 = key then (key, r.2) else e)
        else m ++ [(key, r.2)])

end RateLimiter

inductive Sec where
  | day | cant_do | evening
deriving DecidableEq

def secName : Sec → List Char
  | .day => String.toList "day"
  | .cant_do => String.toList "cant_do"
  | .evening => String.toList "evening"

/-- `section_map = {'day': 'day', 'cant': 'cant_do', 'eve': 'evening'}` -/
def sectionOfTag (tag : List Char) : Option Sec :=
  if tag = String.toList "day" then some .day
  else if tag = String.toList "cant" then some .cant_do
  else if tag = String.toList "eve" then some .evening
  else none

/-- `key = f"{msg_id}_{section}"` -/
def mkKey (msgId : ℕ) (sec : Sec) : List Char := natStr msgId ++ '_' :: secName sec

def Tasks.getSec : Tasks → Sec → List (List Char)
  | t, .day => t.day
  | t, .cant_do => t.cant_do
  | t, .evening => t.evening

def Done.setSec (d : Done) : Sec → Finset ℕ → Done
  | .day, v => { d with day := v }
  | .cant_do, v => { d with cant_do := v }
  | .evening, v => { d with evening := v }

/-- Decoded callback data: the reserved identifiers, a well-formed
toggle identifier, or anything else (including `noop`). -/
inductive CbData where
  | save | cancel
  | toggle (tag : List Char) (idx : ℕ)
  | other
deriving DecidableEq

structure CallbackQuery where
  qid : List Char
  data : CbData
  msgId : ℕ
  msgText : List Char
deriving DecidableEq

inductive Update where
  | callback (q : CallbackQuery)
  | message (chatId : ℤ) (text : List Char)
  | other
deriving DecidableEq

inductive ApiCall where
  | answerCb (qid : List Char) (txt : Option (List Char))
  | editMsg (msgId : ℕ) (text : List Char) (kb : Option (List (List Button)))
  | sendMsg (text : List Char) (kb : Option (List (List Button)))
deriving DecidableEq

/-- `str.replace`: all non-overlapping occurrences, left to right. -/
def replaceAll (pat rep : List Char) : List Char → List Char
  | [] => []
  | c :: rest =>
      if h : pat ≠ [] ∧ litStarts pat (c :: rest) then
        rep ++ replaceAll pat rep ((c :: rest).drop pat.length)
      else c :: replaceAll pat rep rest
termination_by s => s.length
decreasing_by
  · simp only [List.length_drop]
    have hp : 1 ≤ pat.length := by
      cases pat with
      | nil => exact absurd rfl h.1
      | cons p ps => simp
    simp only [List.length_cons]
    omega
  · simp

/-- `TelegramAPIClient.send`'s length guard. -/
def sendText (t : List Char) : List Char :=
  if MAX_MESSAGE_LENGTH < t.length
  then t.take (MAX_MESSAGE_LENGTH - 100) ++ String.toList "\n...[обрезано]"
  else t

/-- `TaskTrackerBot.process_message`: parse, ignore a message with no
tasks, otherwise send the rendered checklist with an empty state. -/
def process_message (text : List Char) : List ApiCall :=
  let tasks := parse_tasks text
  if tasks.day = [] ∧ tasks.cant_do = [] ∧ tasks.evening = [] then []
  else
    [ApiCall.sendMsg (sendText (message_text tasks emptyDone))
      (some (keyboard tasks emptyDone))]

/-- `TaskTrackerBot.handle_callback`: returns the store after the
request and the outbound calls made, in order. -/
def handle_callback (now : ℚ) (q : CallbackQuery)
    (store : StateManager.Store (List Char)) :
    StateManager.Store (List Char) × List ApiCall :=
  match q.data with
  | .save =>
      (store,
       [.answerCb q.qid (some (String.toList "Прогресс сохранён!")),
        .editMsg q.msgId
          (replaceAll (String.toList "Отметь выполненные задачи:")
            (String.toList "ПРОГРЕСС СОХРАНЁН\n\nВЫПОЛНЕННЫЕ ЗАДАЧИ:") q.msgText)
          none])
  | .cancel =>
      (store,
       [.answerCb q.qid (some (String.toList "Отменено")),
        .editMsg q.msgId (String.toList "ОБНОВЛЕНИЕ ОТМЕНЕНО") none])
  | .toggle tag idx =>
      match sectionOfTag tag with
      | none => (store, [])
      | some sec =>
          let key := mkKey q.msgId sec
          let r1 := StateManager.get now key store
          let state := symmDiff r1.1 {idx}
          let store2 := StateManager.set now key state r1.2
          let g1 := StateManager.get now (mkKey q.msgId .day) store2
          let g2 := StateManager.get now (mkKey q.msgId .cant_do) g1.2
          let g3 := StateManager.get now (mkKey q.msgId .evening) g2.2
          let fullDone := Done.setSec ⟨g1.1, g2.1, g3.1⟩ sec state
          let tasks := parse_tasks q.msgText
          (g3.2,
           [.answerCb q.qid none,
            .editMsg q.msgId (message_text tasks fullDone)
              (some (keyboard tasks fullDone))])
  | .other => (store, [])

inductive Resp where
  | ok | forbidden | tooMany | err
deriving DecidableEq

/-- `pat in s` (substring test). -/
def containsSub (pat : List Char) : List Char → Bool
  | [] => decide (pat = [])
  | s@(_ :: rest) => litStarts pat s || containsSub pat rest

/-- `any(x in text.lower() for x in ['задач', 'делать'])` -/
def containsTaskMarker (text : List Char) : Bool :=
  let lower := text.map foldChar
  containsSub (String.toList "задач") lower ||
  containsSub (String.toList "делать") lower

structure BotState where
  store : StateManager.Store (List Char)
  limiter : List (ℕ × List ℚ)
deriving DecidableEq

/-- `TaskTrackerBot.webhook_handler` for a request whose origin resolves
to the IPv4 address `ip`: allowlist check, then rate limit, then
classification and routing. -/
def webhook_handler (chatId : ℤ) (now : ℚ) (ip : ℕ) (upd : Update)
    (s : BotState) : Resp × BotState × List ApiCall :=
  if ¬ ipAllowed ip then (.forbidden, s, [])
  else
    let r := RateLimiter.mapAllow now ip s.limiter
    if ¬ r.1 then (.tooMany, { s with limiter := r.2 }, [])
    else
      match upd with
      | .callback q =>
          let hc := handle_callback now q s.store
          (.ok, { store := hc.1, limiter := r.2 }, hc.2)
      | .message cid text =>
          if cid = chatId ∧ containsTaskMarker text
          then (.ok, { s with limiter := r.2 }, process_message text)
          else (.ok, { s with limiter := r.2 }, [])
      | .other => (.ok, { s with limiter := r.2 }, [])

/-! ## Claim C2: the rate limiter's sliding window -/

namespace RateLimiter

theorem prune_length_le (now : ℚ) (ts : List ℚ) :
    (prune now ts).length ≤ ts.length :=
  List.length_filter_le _ _

theorem allow_of_full (now : ℚ) (ts : List ℚ)
    (h : 100 ≤ (prune now ts).length) : allow now ts = (false, prune now ts) := by
  simp [allow, h]

theorem allow_of_room (now : ℚ) (ts : List ℚ)
    (h : (prune now ts).length < 100) :
    allow now ts = (true, prune now ts ++ [now]) := by
  simp [allow, Nat.not_le.mpr h]

theorem prune_replicate_zero (k : ℕ) :
    prune 0 (List.replicate k (0 : ℚ)) = List.replicate k 0 := by
  apply List.filter_eq_self.mpr
  intro a ha
  rcases List.eq_of_mem_replicate ha with rfl
  norm_num

theorem allow_replicate_zero (k : ℕ) (hk : k < 100) :
    allow 0 (List.replicate k (0 : ℚ)) = (true, List.replicate (k + 1) 0) := by
  rw [allow_of_room 0 _ (by rw [prune_replicate_zero]; simpa using hk),
    prune_replicate_zero, List.replicate_succ']

theorem run_replicate_aux :
    ∀ n k, k + n = 100 →
      run (List.replicate n (0 : ℚ)) (List.replicate k 0) =
        (List.replicate n true, List.replicate 100 0) := by
  intro n
  induction n with
  | zero => intro k hk; subst hk; simp [run]
  | succ n ih =>
      intro k hk
      rw [List.replicate_succ, run, allow_replicate_zero k (by omega),
        ih (k + 1) (by omega)]
      simp [List.replicate_succ]

theorem run_append (a b ts : List ℚ) :
    run (a ++ b) ts =
      ((run a ts).1 ++ (run b (run a ts).2).1, (run b (run a ts).2).2) := by
  induction a generalizing ts with
  | nil => simp [run]
  | cons c cs ih => simp [run, ih]

end RateLimiter

/-- C2: for every origin key the rate limiter admits at most 100
requests per trailing 60-second window: timestamps older than the
window are pruned before the count check, a call that still finds 100
or more recorded timestamps is denied and leaves no record, any other
call is admitted and recorded, every recorded timestamp lies within the
window of the admitting call, the record never exceeds 100 entries, the
101st request inside one window is rejected (the first 100 admitted),
and a request 61 seconds after 100 admissions is admitted. -/
theorem claim_c2_rate_limiter_window :
    (∀ now ts, 100 ≤ (RateLimiter.prune now ts).length →
      RateLimiter.allow now ts = (false, RateLimiter.prune now ts)) ∧
    (∀ now ts, (RateLimiter.prune now ts).length < 100 →
      RateLimiter.allow now ts = (true, RateLimiter.prune now ts ++ [now])) ∧
    (∀ now ts, ts.length ≤ 100 → ((RateLimiter.allow now ts).2).length ≤ 100) ∧
    (∀ now ts t, t ∈ (RateLimiter.allow now ts).2 → now - t < 60) ∧
    (RateLimiter.run (List.replicate 101 (0 : ℚ)) []).1 =
      List.replicate 100 true ++ [false] ∧
    (RateLimiter.allow 61 (List.replicate 100 (0 : ℚ))).1 = true := by
  refine ⟨RateLimiter.allow_of_full, RateLimiter.allow_of_room, ?_, ?_, ?_, ?_⟩
  · intro now ts h
    by_cases hfull : 100 ≤ (RateLimiter.prune now ts).length
    · rw [RateLimiter.allow_of_full now ts hfull]
      exact le_trans (RateLimiter.prune_length_le now ts) h
    · rw [RateLimiter.allow_of_room now ts (Nat.not_le.mp hfull)]
      simp only [List.length_append, List.length_singleton]
      omega
  · intro now ts t ht
    by_cases hfull : 100 ≤ (RateLimiter.prune now ts).length
    · rw [RateLimiter.allow_of_full now ts hfull] at ht
      have := List.of_mem_filter ht
      simpa using this
    · rw [RateLimiter.allow_of_room now ts (Nat.not_le.mp hfull)] at ht
      rcases List.mem_append.mp ht with hm | hm
      · have := List.of_mem_filter hm
        simpa using this
      · rcases List.mem_singleton.mp hm with rfl
        norm_num
  · have h100 : (List.replicate 101 (0 : ℚ)) =
        List.replicate 100 0 ++ [0] := List.replicate_succ' ..
    have haux := RateLimiter.run_replicate_aux 100 0 (by omega)
    rw [List.replicate_zero] at haux
    rw [h100, RateLimiter.run_append, haux]
    have hfull : RateLimiter.allow 0 (List.replicate 100 (0 : ℚ)) =
        (false, List.replicate 100 0) := by
      rw [RateLimiter.allow_of_full 0 _
        (by rw [RateLimiter.prune_replicate_zero]; simp),
        RateLimiter.prune_replicate_zero]
    simp only [RateLimiter.run, hfull]
  · have hp : RateLimiter.prune 61 (List.replicate 100 (0 : ℚ)) = [] := by
      apply List.filter_eq_nil_iff.mpr
      intro a ha
      rcases List.eq_of_mem_replicate ha with rfl
      norm_num
    rw [RateLimiter.allow_of_room 61 _ (by rw [hp]; simp)]

/-! ## StateManager lemmas, for claims C3, C4, C6, C8 -/

namespace StateManager

variable {κ : Type} [DecidableEq κ]

theorem findEntry_key {key : κ} {s : Store κ} {e : κ × ℚ × Finset ℕ}
    (h : findEntry key s = some e) : e.1 = key ∧ e ∈ s := by
  refine ⟨?_, List.mem_of_find?_eq_some h⟩
  have := List.find?_some h
  simpa using this

theorem findEntry_of_not_mem {key : κ} {s : Store κ} (hk : key ∉ keys s) :
    findEntry key s = none := by
  apply List.find?_eq_none.mpr
  intro e he
  simp only [decide_eq_true_eq]
  intro h
  exact hk (h ▸ List.mem_map_of_mem Prod.fst he)

theorem eraseKey_eq_self {key : κ} {s : Store κ} (hk : key ∉ keys s) :
    eraseKey key s = s := by
  apply List.filter_eq_self.mpr
  intro e he
  simp only [ne_eq, decide_eq_true_eq]
  intro h
  exact hk (h ▸ List.mem_map_of_mem Prod.fst he)

theorem findEntry_eraseKey_self (key : κ) (s : Store κ) :
    findEntry key (eraseKey key s) = none := by
  apply List.find?_eq_none.mpr
  intro e he
  have := List.of_mem_filter he
  simpa using this

theorem not_mem_keys_eraseKey (key : κ) (s : Store κ) :
    key ∉ keys (eraseKey key s) := by
  intro h
  rcases List.mem_map.mp h with ⟨e, he, hk⟩
  have := List.of_mem_filter he
  simp only [ne_eq, decide_eq_true_eq] at this
  exact this hk

theorem findEntry_append {key : κ} {l₁ l₂ : Store κ}
    (h : findEntry key l₁ = none) :
    findEntry key (l₁ ++ l₂) = findEntry key l₂ := by
  unfold findEntry at *
  rw [List.find?_append, h, Option.none_or]

theorem eraseKey_length_le (key : κ) (s : Store κ) :
    (eraseKey key s).length ≤ s.length :=
  List.length_filter_le _ _

theorem eraseKey_length_lt {key : κ} {s : Store κ}
    {e : κ × ℚ × Finset ℕ} (h : findEntry key s = some e) :
    (eraseKey key s).length < s.length := by
  apply List.length_filter_lt_length_iff_exists.mpr
  exact ⟨e, (findEntry_key h).2, by simp [(findEntry_key h).1]⟩

theorem get_length_le (now : ℚ) (key : κ) (s : Store κ) :
    ((get now key s).2).length ≤ s.length := by
  unfold get
  cases hf : findEntry key s with
  | none => simp
  | some e =>
      obtain ⟨k, ts, st⟩ := e
      by_cases hl : now - ts < STATE_TTL_SECONDS
      · simp only [hl, if_pos, List.length_append, List.length_singleton]
        exact eraseKey_length_lt hf
      · simp only [hl, if_neg, not_false_iff]
        exact le_trans (eraseKey_length_le key s) (by omega)

theorem set_length_le {now : ℚ} {key : κ} {st : Finset ℕ} {s : Store κ}
    (h : s.length ≤ MAX_STATE_SIZE) :
    (set now key st s).length ≤ MAX_STATE_SIZE := by
  unfold set
  by_cases hc : MAX_STATE_SIZE ≤ s.length
  · have hlen : s.length = MAX_STATE_SIZE := le_antisymm h hc
    simp only [hc, if_pos, List.length_append, List.length_singleton]
    have h1 : (s.drop 1).length = s.length - 1 := by simp
    have := eraseKey_length_le key (s.drop 1)
    simp only [MAX_STATE_SIZE] at *
    omega
  · simp only [hc, if_neg, not_false_iff, List.length_append,
      List.length_singleton]
    have := eraseKey_length_le key s
    simp only [MAX_STATE_SIZE] at *
    omega

theorem applyOp_length_le {s : Store κ} (op : Op κ)
    (h : s.length ≤ MAX_STATE_SIZE) :
    (applyOp op s).length ≤ MAX_STATE_SIZE := by
  cases op with
  | get now key => exact le_trans (get_length_le now key s) h
  | set now key st => exact set_length_le h

theorem applyOps_length_le {s : Store κ} (ops : List (Op κ))
    (h : s.length ≤ MAX_STATE_SIZE) :
    (applyOps ops s).length ≤ MAX_STATE_SIZE := by
  induction ops generalizing s with
  | nil => exact h
  | cons op rest ih => exact ih (applyOp_length_le op h)

theorem set_at_capacity {now : ℚ} {key : κ} {st : Finset ℕ} {s : Store κ}
    (hlen : s.length = MAX_STATE_SIZE) (hk : key ∉ keys s) :
    set now key st s = s.drop 1 ++ [(key, now, st)] := by
  unfold set
  rw [if_pos (le_of_eq hlen.symm)]
  show eraseKey key (s.drop 1) ++ [(key, now, st)] = s.drop 1 ++ [(key, now, st)]
  rw [eraseKey_eq_self]
  intro h
  rcases List.mem_map.mp h with ⟨e, he, hke⟩
  exact hk (hke ▸ List.mem_map_of_mem Prod.fst (List.drop_subset 1 s he))

theorem get_fresh {now : ℚ} {key : κ} {s : Store κ} (hk : key ∉ keys s) :
    get now key s = (∅, s) := by
  unfold get
  rw [findEntry_of_not_mem hk]

theorem get_live {now : ℚ} {key : κ} {s : Store κ} {ts : ℚ} {st : Finset ℕ}
    (h : findEntry key s = some (key, ts, st))
    (hlive : now - ts < STATE_TTL_SECONDS) :
    get now key s = (st, eraseKey key s ++ [(key, ts, st)]) := by
  unfold get
  rw [h]
  show (if now - ts < STATE_TTL_SECONDS then (st, eraseKey key s ++ [(key, ts, st)])
    else (∅, eraseKey key s)) = (st, eraseKey key s ++ [(key, ts, st)])
  rw [if_pos hlive]

theorem get_expired {now : ℚ} {key : κ} {s : Store κ} {ts : ℚ} {st : Finset ℕ}
    (h : findEntry key s = some (key, ts, st))
    (hdead : ¬ now - ts < STATE_TTL_SECONDS) :
    get now key s = (∅, eraseKey key s) := by
  unfold get
  rw [h]
  show (if now - ts < STATE_TTL_SECONDS then (st, eraseKey key s ++ [(key, ts, st)])
    else (∅, eraseKey key s)) = (∅, eraseKey key s)
  rw [if_neg hdead]

theorem eraseKey_length_of_mem {key : κ} {s : Store κ}
    {e : κ × ℚ × Finset ℕ} (hnd : (keys s).Nodup)
    (h : findEntry key s = some e) :
    (eraseKey key s).length + 1 = s.length := by
  induction s with
  | nil => simp [findEntry] at h
  | cons a rest ih =>
      have hkeys : keys (a :: rest) = a.1 :: keys rest := rfl
      rw [hkeys] at hnd
      obtain ⟨hhead, htail⟩ := List.nodup_cons.mp hnd
      by_cases ha : a.1 = key
      · have hnotin : key ∉ keys rest := ha ▸ hhead
        have hstep : eraseKey key (a :: rest) = eraseKey key rest := by
          simp [eraseKey, List.filter_cons, ha]
        rw [hstep, eraseKey_eq_self hnotin]
        simp
      · have hfa : findEntry key rest = some e := by
          unfold findEntry at h ⊢
          rwa [List.find?_cons_of_neg _ (by simpa using ha)] at h
        have hstep : eraseKey key (a :: rest) = a :: eraseKey key rest := by
          simp [eraseKey, List.filter_cons, ha]
        rw [hstep]
        have hih := ih htail hfa
        simp only [List.length_cons]
        omega

end StateManager

/-! ## Claim C3: capacity bound and exact LRU eviction -/

/-- C3: the store never exceeds `MAX_STATE_SIZE = 1000` entries under
any sequence of `get`/`set` operations; a `set` of a fresh key on a
store at capacity evicts exactly the entry at the front of the recency
order (the least recently touched one) and appends the new entry at the
recency end; and because a `get` of a live entry moves it to the
recency end, an entry read since insertion survives such an eviction
while the entry after it in recency order is the one evicted. -/
theorem claim_c3_capacity_lru :
    (∀ (ops : List (StateManager.Op ℕ)) (s : StateManager.Store ℕ),
      s.length ≤ MAX_STATE_SIZE →
      (StateManager.applyOps ops s).length ≤ MAX_STATE_SIZE) ∧
    (∀ (now : ℚ) (key : ℕ) (st : Finset ℕ) (s : StateManager.Store ℕ),
      s.length = MAX_STATE_SIZE → key ∉ StateManager.keys s →
      StateManager.set now key st s = s.drop 1 ++ [(key, now, st)]) ∧
    (∀ (e₀ e₁ : ℕ × ℚ × Finset ℕ) (rest : StateManager.Store ℕ)
      (now now' : ℚ) (k : ℕ) (v : Finset ℕ),
      (StateManager.keys (e₀ :: e₁ :: rest)).Nodup →
      (e₀ :: e₁ :: rest).length = MAX_STATE_SIZE →
      now - e₀.2.1 < STATE_TTL_SECONDS →
      k ∉ StateManager.keys (e₀ :: e₁ :: rest) →
      let afterGet := (StateManager.get now e₀.1 (e₀ :: e₁ :: rest)).2
      let final := StateManager.set now' k v afterGet
      StateManager.findEntry e₀.1 final = some (e₀.1, e₀.2.1, e₀.2.2) ∧
      StateManager.findEntry e₁.1 final = none) := by
  refine ⟨fun ops s h => StateManager.applyOps_length_le ops h,
    fun now key st s h hk => StateManager.set_at_capacity h hk, ?_⟩
  intro e₀ e₁ rest now now' k v hnd hlen hlive hk
  obtain ⟨k₀, t₀, v₀⟩ := e₀
  obtain ⟨k₁, t₁, v₁⟩ := e₁
  have hkeys : StateManager.keys ((k₀, t₀, v₀) :: (k₁, t₁, v₁) :: rest) =
      k₀ :: k₁ :: StateManager.keys rest := rfl
  rw [hkeys] at hnd hk
  obtain ⟨h0, hnd'⟩ := List.nodup_cons.mp hnd
  obtain ⟨hk1rest, _⟩ := List.nodup_cons.mp hnd'
  have hk01 : k₀ ≠ k₁ := fun h => h0 (h ▸ List.mem_cons_self _ _)
  have hk0rest : k₀ ∉ StateManager.keys rest :=
    fun h => h0 (List.mem_cons_of_mem _ h)
  have hkk : k ≠ k₀ ∧ k ≠ k₁ ∧ k ∉ StateManager.keys rest := by
    simpa [not_or] using hk
  have hfind : StateManager.findEntry k₀ ((k₀, t₀, v₀) :: (k₁, t₁, v₁) :: rest) =
      some (k₀, t₀, v₀) := by
    unfold StateManager.findEntry
    exact List.find?_cons_of_pos _ (by simp)
  have hget := StateManager.get_live hfind hlive
  have herase : StateManager.eraseKey k₀ ((k₀, t₀, v₀) :: (k₁, t₁, v₁) :: rest) =
      (k₁, t₁, v₁) :: rest := by
    have htail : StateManager.eraseKey k₀ ((k₁, t₁, v₁) :: rest) =
        (k₁, t₁, v₁) :: rest := by
      apply StateManager.eraseKey_eq_self
      intro h
      rcases List.mem_cons.mp h with h | h
      · exact hk01 h
      · exact hk0rest h
    calc StateManager.eraseKey k₀ ((k₀, t₀, v₀) :: (k₁, t₁, v₁) :: rest)
        = StateManager.eraseKey k₀ ((k₁, t₁, v₁) :: rest) := by
          simp [StateManager.eraseKey, List.filter_cons]
      _ = (k₁, t₁, v₁) :: rest := htail
  intro afterGet final
  have hAfter : afterGet = ((k₁, t₁, v₁) :: rest) ++ [(k₀, t₀, v₀)] := by
    simp only [afterGet, hget, herase]
  have hAfterLen : afterGet.length = MAX_STATE_SIZE := by
    rw [hAfter]
    simp only [List.length_append, List.length_cons, List.length_nil]
    simp only [List.length_cons] at hlen
    omega
  have hkAfter : k ∉ StateManager.keys afterGet := by
    rw [hAfter]
    intro hmem
    rcases List.mem_map.mp hmem with ⟨e, he, hke⟩
    rcases List.mem_append.mp he with he | he
    · rcases List.mem_cons.mp he with he | he
      · exact hkk.2.1 (by rw [← hke, he])
      · exact hkk.2.2 (hke ▸ List.mem_map_of_mem Prod.fst he)
    · rcases List.mem_singleton.mp he with rfl
      exact hkk.1 hke.symm
  have hFinal : final =
      (rest ++ [(k₀, t₀, v₀)]) ++ [(k, now', v)] := by
    have hsc : StateManager.set now' k v afterGet =
        afterGet.drop 1 ++ [(k, now', v)] :=
      StateManager.set_at_capacity hAfterLen hkAfter
    simp only [final, hsc, hAfter]
    simp
  constructor
  · rw [hFinal, List.append_assoc, List.singleton_append,
      StateManager.findEntry_append (StateManager.findEntry_of_not_mem hk0rest)]
    unfold StateManager.findEntry
    exact List.find?_cons_of_pos _ (by simp)
  · rw [hFinal, List.append_assoc, List.singleton_append,
      StateManager.findEntry_append (StateManager.findEntry_of_not_mem hk1rest)]
    unfold StateManager.findEntry
    rw [List.find?_cons_of_neg _ (by simpa using hk01),
      List.find?_cons_of_neg _ (by simpa using hkk.2.1)]
    rfl

/-- Closed instances of C3's conditional parts, the capacity scenario at
the real cap of 1000 entries. -/
theorem claim_c3_capacity_lru_witness :
    (StateManager.applyOps ([] : List (StateManager.Op ℕ)) []).length ≤
      MAX_STATE_SIZE ∧
    StateManager.set 5 1000 {7}
      ((List.range' 0 1000).map (fun i => (i, (0 : ℚ), (∅ : Finset ℕ)))) =
      ((List.range' 0 1000).map (fun i => (i, (0 : ℚ), (∅ : Finset ℕ)))).drop 1 ++
        [(1000, 5, {7})] ∧
    (let rest := (List.range' 2 998).map (fun i => (i, (0 : ℚ), (∅ : Finset ℕ)))
     let afterGet := (StateManager.get 1 0 ((0, 0, ∅) :: (1, 0, ∅) :: rest)).2
     let final := StateManager.set 2 1000 {3} afterGet
     StateManager.findEntry 0 final = some (0, 0, ∅) ∧
     StateManager.findEntry 1 final = none) := by
  have hkeysAll : ∀ (l : List ℕ),
      StateManager.keys (l.map (fun i => (i, (0 : ℚ), (∅ : Finset ℕ)))) = l := by
    intro l
    simp [StateManager.keys, List.map_map, Function.comp_def]
  have hkeq : StateManager.keys
      ((0, 0, ∅) :: (1, 0, ∅) ::
        (List.range' 2 998).map (fun i => (i, (0 : ℚ), (∅ : Finset ℕ)))) =
      0 :: 1 :: List.range' 2 998 := by
    have := hkeysAll (List.range' 2 998)
    simp only [StateManager.keys, List.map_cons] at this ⊢
    rw [this]
  refine ⟨claim_c3_capacity_lru.1 [] [] (by simp [MAX_STATE_SIZE]),
    claim_c3_capacity_lru.2.1 5 1000 {7} _ ?_ ?_, ?_⟩
  · simp [MAX_STATE_SIZE]
  · rw [hkeysAll]
    intro h
    have := List.mem_range'_1.mp h
    omega
  · refine claim_c3_capacity_lru.2.2 (0, 0, ∅) (1, 0, ∅) _ 1 2 1000 {3} ?_ ?_ ?_ ?_
    · rw [hkeq]
      refine List.nodup_cons.mpr ⟨?_, List.nodup_cons.mpr ⟨?_, ?_⟩⟩
      · intro h
        rcases List.mem_cons.mp h with h | h
        · omega
        · have := List.mem_range'_1.mp h; omega
      · intro h
        have := List.mem_range'_1.mp h; omega
      · exact List.nodup_range' 2 998
    · simp [MAX_STATE_SIZE]
    · show (1 : ℚ) - 0 < STATE_TTL_SECONDS
      norm_num [STATE_TTL_SECONDS]
    · rw [hkeq]
      intro h
      rcases List.mem_cons.mp h with h | h
      · omega
      · rcases List.mem_cons.mp h with h | h
        · omega
        · have := List.mem_range'_1.mp h; omega

/-! ## Claim C4: lazy TTL expiry on read -/

/-- C4: a `get` of a key whose entry was written more than
`STATE_TTL_SECONDS = 86400` seconds earlier deletes the entry and
reports the absent value (the empty set, which is how the store encodes
absence); after that read the key is gone and the store is one entry
shorter, so the expired entry no longer counts toward the
`MAX_STATE_SIZE` capacity. -/
theorem claim_c4_ttl_expiry :
    ∀ (now : ℚ) (key : ℕ) (s : StateManager.Store ℕ) (ts : ℚ) (st : Finset ℕ),
      StateManager.findEntry key s = some (key, ts, st) →
      STATE_TTL_SECONDS < now - ts →
      (StateManager.keys s).Nodup →
      StateManager.get now key s = (∅, StateManager.eraseKey key s) ∧
      StateManager.findEntry key ((StateManager.get now key s).2) = none ∧
      ((StateManager.get now key s).2).length + 1 = s.length := by
  intro now key s ts st hf hold hnd
  have hdead : ¬ now - ts < STATE_TTL_SECONDS := by
    intro h
    exact absurd (lt_trans hold h) (lt_irrefl _)
  have hget := StateManager.get_expired hf hdead
  refine ⟨hget, ?_, ?_⟩
  · rw [hget]
    exact StateManager.findEntry_eraseKey_self key s
  · rw [hget]
    exact StateManager.eraseKey_length_of_mem hnd hf

/-- Closed instance of C4 on a one-entry store read 86401 seconds after
its write. -/
theorem claim_c4_ttl_expiry_witness :
    StateManager.get 86401 0 [((0 : ℕ), (0 : ℚ), ({2} : Finset ℕ))] =
      (∅, StateManager.eraseKey 0 [((0 : ℕ), (0 : ℚ), ({2} : Finset ℕ))]) ∧
    StateManager.findEntry 0
      ((StateManager.get 86401 0 [((0 : ℕ), (0 : ℚ), ({2} : Finset ℕ))]).2) = none ∧
    ((StateManager.get 86401 0 [((0 : ℕ), (0 : ℚ), ({2} : Finset ℕ))]).2).length + 1 =
      [((0 : ℕ), (0 : ℚ), ({2} : Finset ℕ))].length :=
  claim_c4_ttl_expiry 86401 0 _ 0 {2} (by rfl)
    (by norm_num [STATE_TTL_SECONDS]) (by simp [StateManager.keys])

/-! ## Claim C8: what a read of a live entry refreshes -/

/-- C8 as stated is false: a live read updates the recency position but
does NOT bump the stored timestamp to the read time.  On the one-entry
store `[(0, 0, ∅)]` read at time 1, the entry's stored timestamp is
still 0, not 1. -/
theorem claim_c8_read_refresh_counterexample :
    (StateManager.get 1 0 [((0 : ℕ), (0 : ℚ), (∅ : Finset ℕ))]).2 =
      [((0 : ℕ), (0 : ℚ), (∅ : Finset ℕ))] ∧
    StateManager.findEntry 0
        ((StateManager.get 1 0 [((0 : ℕ), (0 : ℚ), (∅ : Finset ℕ))]).2) =
      some (0, 0, ∅) ∧
    (0 : ℚ) ≠ 1 := by
  have hf : StateManager.findEntry (0 : ℕ)
      [((0 : ℕ), (0 : ℚ), (∅ : Finset ℕ))] = some (0, 0, ∅) := rfl
  have hget := StateManager.get_live hf (by norm_num [STATE_TTL_SECONDS] :
    (1 : ℚ) - 0 < STATE_TTL_SECONDS)
  refine ⟨by rw [hget]; rfl, by rw [hget]; rfl, by norm_num⟩

/-- C8 amended: a read of a live entry moves it to the recency end,
returns its stored value, and leaves both the stored timestamp and the
stored completion set unchanged (the timestamp is not bumped). -/
theorem claim_c8_read_refresh_amended :
    ∀ (now : ℚ) (key : ℕ) (s : StateManager.Store ℕ) (ts : ℚ) (st : Finset ℕ),
      StateManager.findEntry key s = some (key, ts, st) →
      now - ts < STATE_TTL_SECONDS →
      StateManager.get now key s =
        (st, StateManager.eraseKey key s ++ [(key, ts, st)]) ∧
      StateManager.findEntry key ((StateManager.get now key s).2) =
        some (key, ts, st) := by
  intro now key s ts st hf hlive
  have hget := StateManager.get_live hf hlive
  refine ⟨hget, ?_⟩
  rw [hget]
  rw [StateManager.findEntry_append (StateManager.findEntry_eraseKey_self key s)]
  unfold StateManager.findEntry
  exact List.find?_cons_of_pos _ (by simp)

/-- Closed instance of C8's amended statement. -/
theorem claim_c8_read_refresh_amended_witness :
    StateManager.get 1 0 [((0 : ℕ), (0 : ℚ), ({5} : Finset ℕ))] =
      ({5}, StateManager.eraseKey 0 [((0 : ℕ), (0 : ℚ), ({5} : Finset ℕ))] ++
        [(0, 0, {5})]) ∧
    StateManager.findEntry 0
        ((StateManager.get 1 0 [((0 : ℕ), (0 : ℚ), ({5} : Finset ℕ))]).2) =
      some (0, 0, {5}) :=
  claim_c8_read_refresh_amended 1 0 _ 0 {5} (by rfl)
    (by norm_num [STATE_TTL_SECONDS])

/-! ## Claim C6: the Dispatcher's toggle is an involution on a fresh key -/

namespace StateManager

theorem findEntry_set {κ : Type} [DecidableEq κ] (now : ℚ) (key : κ)
    (st : Finset ℕ) (s : Store κ) :
    findEntry key (set now key st s) = some (key, now, st) := by
  unfold set
  show findEntry key
    (eraseKey key (if MAX_STATE_SIZE ≤ s.length then s.drop 1 else s) ++
      [(key, now, st)]) = some (key, now, st)
  rw [findEntry_append (findEntry_eraseKey_self _ _)]
  unfold findEntry
  exact List.find?_cons_of_pos _ (by simp)

end StateManager

/-- C6: toggling index `idx` twice on a key with no prior state (the
Dispatcher's get / symmetric-difference / set sequence, `toggleOp`)
leaves that key's stored completion set empty, for any store, any
message key, and any two call times within the TTL of each other. -/
theorem claim_c6_toggle_involution :
    ∀ (now₁ now₂ : ℚ) (key : List Char) (idx : ℕ)
      (s : StateManager.Store (List Char)),
      key ∉ StateManager.keys s →
      now₂ - now₁ < STATE_TTL_SECONDS →
      StateManager.findEntry key
        (toggleOp now₂ key idx (toggleOp now₁ key idx s)) =
        some (key, now₂, ∅) := by
  intro now₁ now₂ key idx s hk hlive
  have hsym0 : symmDiff (∅ : Finset ℕ) {idx} = {idx} := by simp
  have hsym1 : symmDiff ({idx} : Finset ℕ) {idx} = ∅ := by simp
  have h1 : toggleOp now₁ key idx s = StateManager.set now₁ key {idx} s := by
    unfold toggleOp
    rw [StateManager.get_fresh hk]
    show StateManager.set now₁ key (symmDiff ∅ {idx}) s =
      StateManager.set now₁ key {idx} s
    rw [hsym0]
  have hfe := StateManager.findEntry_set now₁ key ({idx} : Finset ℕ) s
  have h2 := StateManager.get_live hfe hlive
  rw [h1]
  unfold toggleOp
  rw [h2]
  show StateManager.findEntry key
    (StateManager.set now₂ key (symmDiff {idx} {idx}) _) = some (key, now₂, ∅)
  rw [hsym1]
  exact StateManager.findEntry_set now₂ key ∅ _

/-- Closed instance of C6 with the Dispatcher's actual key for message
42 and the day section. -/
theorem claim_c6_toggle_involution_witness :
    StateManager.findEntry (mkKey 42 .day)
      (toggleOp 1 (mkKey 42 .day) 3 (toggleOp 0 (mkKey 42 .day) 3 [])) =
      some (mkKey 42 .day, 1, ∅) :=
  claim_c6_toggle_involution 0 1 (mkKey 42 .day) 3 []
    (by simp [StateManager.keys]) (by norm_num [STATE_TTL_SECONDS])

/-! ## Claim C10: the store never aliases caller-held set objects -/

namespace HeapModel

variable {κ : Type} [DecidableEq κ]

theorem readH_mutate_ne {h : Heap} {i j : ℕ} (hij : i ≠ j) (v : Finset ℕ) :
    readH (mutateH h j v) i = readH h i := by
  unfold readH mutateH
  simp [List.getD_eq_getElem?_getD, List.getElem?_set_ne (Ne.symm hij)]

/-- Mutating an object no stored id names leaves every later read's
contents unchanged. -/
theorem observe_mutate_ne {h : Heap} {s : HStore κ} {j : ℕ}
    (hj : ∀ i ∈ storedIds s, i ≠ j) (v : Finset ℕ) (n : ℚ) (k : κ) :
    observe n k (mutateH h j v) s = observe n k h s := by
  unfold observe
  cases hf : hfind k s with
  | none => rfl
  | some e =>
      obtain ⟨k', ts, i⟩ := e
      have hi : i ∈ storedIds s := by
        unfold storedIds
        exact List.mem_map_of_mem _ (List.mem_of_find?_eq_some hf)
      show (if n - ts < STATE_TTL_SECONDS then readH (mutateH h j v) i else ∅) =
        (if n - ts < STATE_TTL_SECONDS then readH h i else ∅)
      rw [readH_mutate_ne (hj i hi) v]

theorem storedIds_herase_subset (key : κ) (s : HStore κ) :
    ∀ i ∈ storedIds (herase key s), i ∈ storedIds s := by
  intro i hi
  unfold storedIds at hi ⊢
  rcases List.mem_map.mp hi with ⟨e, he, hie⟩
  exact hie ▸ List.mem_map_of_mem _ (List.mem_of_mem_filter he)

/-- `hget` always allocates the object it hands back: its id is the old
heap size, the heap grows by that one object, and the resulting store
names only ids it already named. -/
theorem hget_parts (now : ℚ) (key : κ) (h : Heap) (s : HStore κ) :
    ∃ x s', hget now key h s = (h.length, h ++ [x], s') ∧
      ∀ i ∈ storedIds s', i ∈ storedIds s := by
  unfold hget
  cases hf : hfind key s with
  | none => exact ⟨∅, s, rfl, fun i hi => hi⟩
  | some e =>
      obtain ⟨k, ts, i⟩ := e
      by_cases hl : now - ts < STATE_TTL_SECONDS
      · refine ⟨readH h i, herase key s ++ [(key, ts, i)], by simp [allocH, hl], ?_⟩
        intro j hj
        unfold storedIds at hj
        rw [List.map_append] at hj
        rcases List.mem_append.mp hj with hj | hj
        · exact storedIds_herase_subset key s j hj
        · simp only [List.map_cons, List.map_nil, List.mem_singleton] at hj
          subst hj
          unfold storedIds
          exact List.mem_map_of_mem _ (List.mem_of_find?_eq_some hf)
      · exact ⟨∅, herase key s, by simp [allocH, hl],
          storedIds_herase_subset key s⟩

theorem hset_parts (now : ℚ) (key : κ) (arg : ℕ) (h : Heap) (s : HStore κ) :
    hset now key arg h s =
      (h ++ [readH h arg],
       herase key (if MAX_STATE_SIZE ≤ s.length then s.drop 1 else s) ++
         [(key, now, h.length)]) := rfl

end HeapModel

/-- C10: the store never aliases its sets with callers.  In the
object-level model, the id `hget` returns is freshly allocated, so
mutating that object afterwards changes no value any later `get`
observes; and `hset` stores a fresh copy of its argument object, so
mutating the argument afterwards likewise changes no observed value. -/
theorem claim_c10_no_aliasing :
    (∀ (now : ℚ) (key : ℕ) (h : HeapModel.Heap) (s : HeapModel.HStore ℕ),
      HeapModel.wf h s →
      ∀ (v : Finset ℕ) (now₂ : ℚ) (key₂ : ℕ),
        HeapModel.observe now₂ key₂
          (HeapModel.mutateH (HeapModel.hget now key h s).2.1
            (HeapModel.hget now key h s).1 v)
          (HeapModel.hget now key h s).2.2 =
        HeapModel.observe now₂ key₂ (HeapModel.hget now key h s).2.1
          (HeapModel.hget now key h s).2.2) ∧
    (∀ (now : ℚ) (key arg : ℕ) (h : HeapModel.Heap) (s : HeapModel.HStore ℕ),
      HeapModel.wf h s → arg < h.length → arg ∉ HeapModel.storedIds s →
      ∀ (v : Finset ℕ) (now₂ : ℚ) (key₂ : ℕ),
        HeapModel.observe now₂ key₂
          (HeapModel.mutateH (HeapModel.hset now key arg h s).1 arg v)
          (HeapModel.hset now key arg h s).2 =
        HeapModel.observe now₂ key₂ (HeapModel.hset now key arg h s).1
          (HeapModel.hset now key arg h s).2) := by
  constructor
  · intro now key h s hwf v now₂ key₂
    obtain ⟨x, s', heq, hsub⟩ := HeapModel.hget_parts now key h s
    rw [heq]
    apply HeapModel.observe_mutate_ne
    intro i hi
    exact Nat.ne_of_lt (hwf i (hsub i hi))
  · intro now key arg h s hwf hargLt harg v now₂ key₂
    rw [HeapModel.hset_parts]
    apply HeapModel.observe_mutate_ne
    intro i hi
    unfold HeapModel.storedIds at hi
    rw [List.map_append] at hi
    rcases List.mem_append.mp hi with hi | hi
    · intro hia
      apply harg
      rw [← hia]
      rcases List.mem_map.mp hi with ⟨e, he, hie⟩
      have he' : e ∈ s := by
        by_cases hc : MAX_STATE_SIZE ≤ s.length
        · rw [if_pos hc] at he
          exact List.drop_subset 1 s (List.mem_of_mem_filter he)
        · rw [if_neg hc] at he
          exact List.mem_of_mem_filter he
      exact hie ▸ List.mem_map_of_mem _ he'
    · simp only [List.map_cons, List.map_nil, List.mem_singleton] at hi
      subst hi
      exact Ne.symm (Nat.ne_of_lt hargLt)

/-- Closed instances of C10's two parts on a one-object heap. -/
theorem claim_c10_no_aliasing_witness :
    HeapModel.observe 0 0
      (HeapModel.mutateH
        (HeapModel.hget 0 0 [{1}] ([] : HeapModel.HStore ℕ)).2.1
        (HeapModel.hget 0 0 [{1}] ([] : HeapModel.HStore ℕ)).1 {9})
      (HeapModel.hget 0 0 [{1}] ([] : HeapModel.HStore ℕ)).2.2 =
    HeapModel.observe 0 0
      (HeapModel.hget 0 0 [{1}] ([] : HeapModel.HStore ℕ)).2.1
      (HeapModel.hget 0 0 [{1}] ([] : HeapModel.HStore ℕ)).2.2 ∧
    HeapModel.observe 0 0
      (HeapModel.mutateH
        (HeapModel.hset 0 0 0 [{1}] ([] : HeapModel.HStore ℕ)).1 0 {9})
      (HeapModel.hset 0 0 0 [{1}] ([] : HeapModel.HStore ℕ)).2 =
    HeapModel.observe 0 0
      (HeapModel.hset 0 0 0 [{1}] ([] : HeapModel.HStore ℕ)).1
      (HeapModel.hset 0 0 0 [{1}] ([] : HeapModel.HStore ℕ)).2 :=
  ⟨claim_c10_no_aliasing.1 0 0 [{1}] []
      (by intro i hi; simp [HeapModel.storedIds] at hi) {9} 0 0,
   claim_c10_no_aliasing.2 0 0 0 [{1}] []
      (by intro i hi; simp [HeapModel.storedIds] at hi) (by simp)
      (by simp [HeapModel.storedIds]) {9} 0 0⟩

/-! ## Claim C5: handling of platform-reported logical errors -/

namespace TelegramAPIClient

theorem requestAux_snd_ge (o : ℕ → TgOutcome) :
    ∀ fuel i, i ≤ (requestAux o fuel i).2 := by
  intro fuel
  induction fuel with
  | zero => intro i; exact le_refl i
  | succ f ih =>
      intro i
      show i ≤ (requestAux o (f + 1) i).2
      unfold requestAux
      cases ho : o i with
      | exc => exact le_trans (Nat.le_succ i) (ih (i + 1))
      | resp ok r =>
          cases ok with
          | true => exact Nat.le_succ i
          | false => exact le_trans (Nat.le_succ i) (ih (i + 1))

theorem requestAux_snd_ge1 (o : ℕ → TgOutcome) (fuel i : ℕ)
    (hf : 1 ≤ fuel) : i + 1 ≤ (requestAux o fuel i).2 := by
  obtain ⟨f, rfl⟩ : ∃ f, fuel = f + 1 := ⟨fuel - 1, by omega⟩
  unfold requestAux
  cases ho : o i with
  | exc => exact requestAux_snd_ge o f (i + 1)
  | resp ok r =>
      cases ok with
      | true => exact le_refl _
      | false => exact requestAux_snd_ge o f (i + 1)

theorem request_step_logical (o : ℕ → TgOutcome) (i fuel : ℕ) (r : ℕ)
    (h : o i = TgOutcome.resp false r) :
    requestAux o (fuel + 1) i = requestAux o fuel (i + 1) := by
  show (match o i with
    | TgOutcome.resp true r => (some r, i + 1)
    | TgOutcome.resp false _ => requestAux o fuel (i + 1)
    | TgOutcome.exc => requestAux o fuel (i + 1)) = requestAux o fuel (i + 1)
  rw [h]

end TelegramAPIClient

/-- C5 as stated is false on the code: after a reply that does not carry
the success flag on the first attempt, `request` does not stop with an
absent result — with the oracle that answers a flagless reply first and
a successful reply second, the call returns the second attempt's result
after 2 attempts, so a further attempt was made. -/
theorem claim_c5_counterexample :
    TelegramAPIClient.request
        (fun n => if n = 0 then TgOutcome.resp false 0 else TgOutcome.resp true 7) =
      (some 7, 2) ∧
    ¬ (∀ (o : ℕ → TgOutcome) (r : ℕ),
        o 0 = TgOutcome.resp false r →
        TelegramAPIClient.request o = (none, 1)) := by
  have h1 : TelegramAPIClient.request
      (fun n => if n = 0 then TgOutcome.resp false 0 else TgOutcome.resp true 7) =
      (some 7, 2) := rfl
  refine ⟨h1, fun hclaim => ?_⟩
  have h2 := hclaim
    (fun n => if n = 0 then TgOutcome.resp false 0 else TgOutcome.resp true 7) 0
    (by simp)
  rw [h1] at h2
  simp at h2

/-- C5 amended: a reply without the success flag is never returned as a
success and does not end the call; the client logs it and proceeds to
the next attempt (at least one further attempt is made), and only when
all `MAX_RETRIES = 3` attempts yield flagless replies does it give up
and return the absent result. -/
theorem claim_c5_logical_error_retries :
    (∀ (o : ℕ → TgOutcome) (r : ℕ), o 0 = TgOutcome.resp false r →
      2 ≤ (TelegramAPIClient.request o).2) ∧
    (∀ (o : ℕ → TgOutcome) (r0 r1 r2 : ℕ),
      o 0 = TgOutcome.resp false r0 → o 1 = TgOutcome.resp false r1 →
      o 2 = TgOutcome.resp false r2 →
      TelegramAPIClient.request o = (none, 3)) := by
  constructor
  · intro o r h0
    show 2 ≤ (TelegramAPIClient.requestAux o MAX_RETRIES 0).2
    rw [show MAX_RETRIES = 2 + 1 from rfl,
      TelegramAPIClient.request_step_logical o 0 2 r h0]
    exact TelegramAPIClient.requestAux_snd_ge1 o 2 1 (by omega)
  · intro o r0 r1 r2 h0 h1 h2
    show TelegramAPIClient.requestAux o MAX_RETRIES 0 = (none, 3)
    rw [show MAX_RETRIES = 2 + 1 from rfl,
      TelegramAPIClient.request_step_logical o 0 2 r0 h0,
      show (2 : ℕ) = 1 + 1 from rfl,
      TelegramAPIClient.request_step_logical o 1 1 r1 h1,
      show (1 : ℕ) = 0 + 1 from rfl,
      TelegramAPIClient.request_step_logical o 2 0 r2 h2]
    rfl

/-- Closed instance of C5's amended statement with three flagless
replies. -/
theorem claim_c5_logical_error_retries_witness :
    2 ≤ (TelegramAPIClient.request (fun _ => TgOutcome.resp false 5)).2 ∧
    TelegramAPIClient.request (fun _ => TgOutcome.resp false 5) = (none, 3) :=
  ⟨claim_c5_logical_error_retries.1 (fun _ => TgOutcome.resp false 5) 5 rfl,
   claim_c5_logical_error_retries.2 (fun _ => TgOutcome.resp false 5) 5 5 5
     rfl rfl rfl⟩

/-! ## Claim C7: rejected origins leave no trace -/

/-- C7: the origin is resolved to the first `X-Forwarded-For` entry when
that is non-blank and to the transport peer otherwise; and a request
whose resolved IPv4 address lies outside every allowlisted range is
answered with the 403 status while the State Store and the Rate Limiter
map are returned unchanged and no outbound API call is made, whatever
the update payload. -/
theorem claim_c7_forbidden_origin :
    (∀ remote : List Char, resolveClientIp [] remote = remote) ∧
    (∀ (xff remote : List Char),
      pyStrip (xff.takeWhile (fun c => decide (c ≠ ','))) ≠ [] →
      resolveClientIp xff remote =
        pyStrip (xff.takeWhile (fun c => decide (c ≠ ',')))) ∧
    (∀ (chatId : ℤ) (now : ℚ) (ip : ℕ) (upd : Update) (s : BotState),
      ipAllowed ip = false →
      webhook_handler chatId now ip upd s = (Resp.forbidden, s, [])) := by
  refine ⟨fun remote => rfl, fun xff remote h => ?_, fun chatId now ip upd s hip => ?_⟩
  · unfold resolveClientIp
    rw [if_neg h]
  · unfold webhook_handler
    rw [if_pos (by simp [hip])]

/-- Closed instance of C7: a request from 8.8.8.8 with a callback
payload and a non-trivial bot state is rejected untouched. -/
theorem claim_c7_forbidden_origin_witness :
    resolveClientIp (String.toList "8.8.8.8, 1.2.3.4") (String.toList "9.9.9.9") =
      String.toList "8.8.8.8" ∧
    webhook_handler 0 0 (ipv4 8 8 8 8)
      (Update.callback ⟨String.toList "q", CbData.save, 1, String.toList "t"⟩)
      ⟨[(String.toList "k", 0, {1})], [(ipv4 8 8 8 8, [0])]⟩ =
      (Resp.forbidden, ⟨[(String.toList "k", 0, {1})], [(ipv4 8 8 8 8, [0])]⟩, []) := by
  constructor
  · exact claim_c7_forbidden_origin.2.1 (String.toList "8.8.8.8, 1.2.3.4")
      (String.toList "9.9.9.9") (by decide)
  · exact claim_c7_forbidden_origin.2.2 0 0 (ipv4 8 8 8 8) _ _ (by decide)

/-! ## Claim C9: control identifiers fit the 64-byte budget -/

theorem digit_toNat (d : ℕ) (h : d < 10) : (Char.ofNat (48 + d)).toNat = 48 + d := by
  have hv : Nat.isValidChar (48 + d) := Or.inl (by omega)
  rw [Char.ofNat, dif_pos hv]
  rfl

theorem natStrAux_length_le :
    ∀ (fuel k n : ℕ), 1 ≤ k → n < 10 ^ k → (natStrAux fuel n).length ≤ k := by
  intro fuel
  induction fuel with
  | zero => intro k n hk _; simp [natStrAux]
  | succ fuel ih =>
      intro k n hk hn
      rw [show natStrAux (fuel + 1) n =
        if n < 10 then [Char.ofNat (48 + n)]
        else natStrAux fuel (n / 10) ++ [Char.ofNat (48 + n % 10)] from rfl]
      by_cases h10 : n < 10
      · rw [if_pos h10]
        simpa using hk
      · rw [if_neg h10]
        have hk2 : 2 ≤ k := by
          by_contra hlt
          have hk1 : k = 1 := by omega
          subst hk1
          simp at hn
          omega
        have hdiv : n / 10 < 10 ^ (k - 1) := by
          apply Nat.div_lt_of_lt_mul
          calc n < 10 ^ k := hn
            _ = 10 * 10 ^ (k - 1) := by
              rw [← pow_succ']
              congr 1
              omega
        have := ih (k - 1) (n / 10) (by omega) hdiv
        simp only [List.length_append, List.length_cons, List.length_nil]
        omega

theorem natStr_length_le (k n : ℕ) (hk : 1 ≤ k) (hn : n < 10 ^ k) :
    (natStr n).length ≤ k :=
  natStrAux_length_le (n + 1) k n hk hn

theorem natStrAux_ascii : ∀ fuel n, ∀ c ∈ natStrAux fuel n, c.toNat < 128 := by
  intro fuel
  induction fuel with
  | zero => intro n c hc; simp [natStrAux] at hc
  | succ fuel ih =>
      intro n c hc
      rw [show natStrAux (fuel + 1) n =
        if n < 10 then [Char.ofNat (48 + n)]
        else natStrAux fuel (n / 10) ++ [Char.ofNat (48 + n % 10)] from rfl] at hc
      by_cases h10 : n < 10
      · rw [if_pos h10] at hc
        rcases List.mem_singleton.mp hc with rfl
        rw [digit_toNat n h10]
        omega
      · rw [if_neg h10] at hc
        rcases List.mem_append.mp hc with hc | hc
        · exact ih (n / 10) c hc
        · rcases List.mem_singleton.mp hc with rfl
          rw [digit_toNat _ (Nat.mod_lt n (by omega))]
          have := Nat.mod_lt n (show 0 < 10 by omega)
          omega

theorem natStr_ascii (n : ℕ) : ∀ c ∈ natStr n, c.toNat < 128 :=
  natStrAux_ascii (n + 1) n

theorem utf8Len_append (a b : List Char) :
    utf8Len (a ++ b) = utf8Len a + utf8Len b := by
  simp [utf8Len]

theorem utf8Len_ascii : ∀ (l : List Char), (∀ c ∈ l, c.toNat < 128) →
    utf8Len l = l.length := by
  intro l
  induction l with
  | nil => intro _; rfl
  | cons c rest ih =>
      intro h
      have hc : utf8Size c = 1 := by
        unfold utf8Size
        rw [if_pos (h c (List.mem_cons_self c rest))]
      simp only [utf8Len, List.map_cons, List.sum_cons, List.length_cons] at *
      rw [hc, ih (fun x hx => h x (List.mem_cons_of_mem c hx))]
      omega

/-- The byte budget for a rendered toggle identifier. -/
theorem toggleId_bytes_le (tag : List Char)
    (htag : tag = String.toList "day" ∨ tag = String.toList "cant" ∨
      tag = String.toList "eve")
    (i : ℕ) (hi : i < 10 ^ 52) :
    utf8Len (String.toList "toggle_" ++ tag ++ '_' :: natStr i) ≤
      MAX_CALLBACK_DATA_BYTES := by
  have hlen : (natStr i).length ≤ 52 := natStr_length_le 52 i (by omega) hi
  have hn : utf8Len (natStr i) = (natStr i).length :=
    utf8Len_ascii _ (natStr_ascii i)
  have hu : '_' :: natStr i = ['_'] ++ natStr i := rfl
  rw [hu, utf8Len_append, utf8Len_append, utf8Len_append]
  have h7 : utf8Len (String.toList "toggle_") = 7 := by decide
  have hunder : utf8Len ['_'] = 1 := by decide
  have htg : utf8Len tag ≤ 4 := by
    rcases htag with h | h | h <;> subst h <;> decide
  rw [h7, hunder, hn]
  show 7 + utf8Len tag + (1 + (natStr i).length) ≤ MAX_CALLBACK_DATA_BYTES
  simp only [MAX_CALLBACK_DATA_BYTES]
  omega

theorem enum_fst_lt {α : Type} {l : List α} {e : ℕ × α} (h : e ∈ l.enum) :
    e.1 < l.length := by
  rw [List.enum_eq_zip_range] at h
  obtain ⟨a, b⟩ := e
  have := (List.of_mem_zip h).1
  exact List.mem_range.mp this

/-- The identifiers a single section contributes. -/
theorem mem_keyboardIds_sectionRows {title tag : List Char}
    {ts : List (List Char)} {done : Finset ℕ} {d : List Char}
    (hd : d ∈ keyboardIds (sectionRows title tag ts done)) :
    d = String.toList "noop" ∨
    ∃ i < ts.length, d = String.toList "toggle_" ++ tag ++ '_' :: natStr i := by
  unfold sectionRows at hd
  by_cases hts : ts = []
  · rw [if_pos hts] at hd
    simp [keyboardIds] at hd
  · rw [if_neg hts] at hd
    unfold keyboardIds at hd
    rcases List.mem_flatMap.mp hd with ⟨row, hrow, hdrow⟩
    rcases List.mem_cons.mp hrow with h | h
    · subst h
      left
      simpa using hdrow
    · rcases List.mem_map.mp h with ⟨e, he, hrow'⟩
      subst hrow'
      right
      refine ⟨e.1, enum_fst_lt he, ?_⟩
      simpa using hdrow

/-- Every identifier of a rendered keyboard is a reserved one or a
toggle identifier with an in-range index. -/
theorem mem_keyboardIds (tasks : Tasks) (done : Done) (d : List Char)
    (hd : d ∈ keyboardIds (keyboard tasks done)) :
    d = String.toList "noop" ∨ d = String.toList "save" ∨
    d = String.toList "cancel" ∨
    (∃ i < tasks.day.length,
      d = String.toList "toggle_" ++ String.toList "day" ++ '_' :: natStr i) ∨
    (∃ i < tasks.cant_do.length,
      d = String.toList "toggle_" ++ String.toList "cant" ++ '_' :: natStr i) ∨
    (∃ i < tasks.evening.length,
      d = String.toList "toggle_" ++ String.toList "eve" ++ '_' :: natStr i) := by
  unfold keyboard at hd
  unfold keyboardIds at hd
  rw [List.flatMap_append, List.flatMap_append, List.flatMap_append] at hd
  rcases List.mem_append.mp hd with hd | hd
  · rcases List.mem_append.mp hd with hd | hd
    · rcases List.mem_append.mp hd with hd | hd
      · rcases mem_keyboardIds_sectionRows hd with h | h
        · exact Or.inl h
        · exact Or.inr (Or.inr (Or.inr (Or.inl h)))
      · rcases mem_keyboardIds_sectionRows hd with h | h
        · exact Or.inl h
        · exact Or.inr (Or.inr (Or.inr (Or.inr (Or.inl h))))
    · rcases mem_keyboardIds_sectionRows hd with h | h
      · exact Or.inl h
      · exact Or.inr (Or.inr (Or.inr (Or.inr (Or.inr h))))
  · simp at hd
    rcases hd with h | h
    · exact Or.inr (Or.inl h)
    · exact Or.inr (Or.inr (Or.inl h))

/-! Size bounds through the parser, used to bound the indices a parsed
message can produce. -/

theorem natSum_sublist_le {l₁ l₂ : List ℕ} (h : l₁.Sublist l₂) :
    l₁.sum ≤ l₂.sum := by
  induction h with
  | slnil => exact le_refl 0
  | cons a _ ih => simp only [List.sum_cons]; omega
  | cons₂ a _ ih => simp only [List.sum_cons]; omega

theorem dropWhile_length_le (p : Char → Bool) (l : List Char) :
    (l.dropWhile p).length ≤ l.length :=
  List.Sublist.length_le (List.dropWhile_sublist p)

theorem pyStrip_length_le (l : List Char) : (pyStrip l).length ≤ l.length := by
  unfold pyStrip
  rw [List.length_reverse]
  calc ((l.dropWhile isSpace).reverse.dropWhile isSpace).length
      ≤ (l.dropWhile isSpace).reverse.length := dropWhile_length_le _ _
    _ = (l.dropWhile isSpace).length := List.length_reverse _
    _ ≤ l.length := dropWhile_length_le _ _

theorem escapeChar_length_le (c : Char) : (escapeChar c).length ≤ 6 := by
  unfold escapeChar
  split_ifs <;> simp

theorem escapeHtml_length_le (l : List Char) :
    (escapeHtml l).length ≤ 6 * l.length := by
  induction l with
  | nil => simp [escapeHtml]
  | cons c rest ih =>
      have hstep : escapeHtml (c :: rest) = escapeChar c ++ escapeHtml rest := by
        simp [escapeHtml]
      rw [hstep, List.length_append]
      have := escapeChar_length_le c
      simp only [List.length_cons]
      omega

theorem splitLinesAux_bounds : ∀ (l acc : List Char),
    ((splitLinesAux l acc).map List.length).sum ≤ l.length + acc.length ∧
    (splitLinesAux l acc).length ≤ l.length + 1 := by
  intro l acc
  induction l, acc using splitLinesAux.induct with
  | case1 acc => simp [splitLinesAux]
  | case2 rest acc ih =>
      rw [show splitLinesAux ('\r' :: '\n' :: rest) acc =
        acc.reverse :: splitLinesAux rest [] from rfl]
      simp only [List.map_cons, List.sum_cons, List.length_reverse,
        List.length_cons, List.length_nil] at *
      omega
  | case3 c rest acc hcr hbrk ih =>
      have hstep : splitLinesAux (c :: rest) acc =
          acc.reverse :: splitLinesAux rest [] := by
        simp only [splitLinesAux, hbrk, if_true]
      rw [hstep]
      simp only [List.map_cons, List.sum_cons, List.length_reverse,
        List.length_cons, List.length_nil] at *
      omega
  | case4 c rest acc hcr hbrk ih =>
      have hstep : splitLinesAux (c :: rest) acc =
          splitLinesAux rest (c :: acc) := by
        simp [splitLinesAux, hbrk]
      rw [hstep]
      simp only [List.length_cons] at *
      omega

theorem splitLines_bounds (l : List Char) :
    ((splitLines l).map List.length).sum ≤ l.length ∧
    (splitLines l).length ≤ l.length + 1 := by
  unfold splitLines
  have h := splitLinesAux_bounds l []
  simp only [List.length_nil, Nat.add_zero] at h
  by_cases hlast : (splitLinesAux l []).getLast? = some []
  · rw [if_pos hlast]
    constructor
    · calc ((splitLinesAux l []).dropLast.map List.length).sum
          ≤ ((splitLinesAux l []).map List.length).sum := by
            apply natSum_sublist_le
            exact (List.dropLast_sublist _).map _
        _ ≤ l.length := h.1
    · calc (splitLinesAux l []).dropLast.length
          ≤ (splitLinesAux l []).length := List.Sublist.length_le (List.dropLast_sublist _)
        _ ≤ l.length + 1 := h.2
  · rw [if_neg hlast]
    exact h

theorem joinNl_length_le : ∀ (ps : List (List Char)),
    (joinNl ps).length ≤ (ps.map List.length).sum + ps.length := by
  intro ps
  induction ps with
  | nil => simp [joinNl]
  | cons p rest ih =>
      cases rest with
      | nil => simp [joinNl]
      | cons q qs =>
          rw [show joinNl (p :: q :: qs) = p ++ '\n' :: joinNl (q :: qs) from rfl]
          simp only [List.length_append, List.length_cons, List.map_cons,
            List.sum_cons] at *
          omega

theorem mapSum_pyStrip_le (L : List (List Char)) :
    ((L.map pyStrip).map List.length).sum ≤ (L.map List.length).sum := by
  induction L with
  | nil => simp
  | cons x rest ih =>
      simp only [List.map_cons, List.sum_cons]
      have := pyStrip_length_le x
      omega

theorem mapSum_filter_le (p : List Char → Bool) (L : List (List Char)) :
    ((L.filter p).map List.length).sum ≤ (L.map List.length).sum :=
  natSum_sublist_le ((List.filter_sublist L).map _)

theorem mapSum_escape_le (L : List (List Char)) :
    ((L.map escapeHtml).map List.length).sum ≤ 6 * (L.map List.length).sum := by
  induction L with
  | nil => simp
  | cons x rest ih =>
      simp only [List.map_cons, List.sum_cons]
      have := escapeHtml_length_le x
      omega

theorem safeText_length_le (text : List Char) :
    (safeText text).length ≤ 7 * text.length + 1 := by
  unfold safeText
  have hsplit := splitLines_bounds text
  set L := splitLines text with hL
  set P := ((L.map pyStrip).filter (fun l => decide (l ≠ []))).map escapeHtml with hP
  have hcount : P.length ≤ text.length + 1 := by
    calc P.length = ((L.map pyStrip).filter (fun l => decide (l ≠ []))).length := by
          simp [hP]
      _ ≤ (L.map pyStrip).length := List.length_filter_le _ _
      _ = L.length := List.length_map _ _
      _ ≤ text.length + 1 := hsplit.2
  have hsum : (P.map List.length).sum ≤ 6 * text.length := by
    calc (P.map List.length).sum
        ≤ 6 * (((L.map pyStrip).filter (fun l => decide (l ≠ []))).map List.length).sum :=
          mapSum_escape_le _
      _ ≤ 6 * ((L.map pyStrip).map List.length).sum := by
          have := mapSum_filter_le (fun l => decide (l ≠ [])) (L.map pyStrip)
          omega
      _ ≤ 6 * (L.map List.length).sum := by
          have := mapSum_pyStrip_le L
          omega
      _ ≤ 6 * text.length := by
          have := hsplit.1
          omega
  calc (joinNl P).length ≤ (P.map List.length).sum + P.length := joinNl_length_le P
    _ ≤ 7 * text.length + 1 := by omega

theorem dropCoreOpt_length_le (p : SectionPat) (s : List Char) :
    (dropCoreOpt p s).length ≤ s.length := by
  cases s with
  | nil => simp [dropCoreOpt]
  | cons c rest =>
      show (if p.coreOpt.any (fun oc => foldChar oc = foldChar c) then rest
        else c :: rest).length ≤ (c :: rest).length
      by_cases hopt : p.coreOpt.any (fun oc => foldChar oc = foldChar c)
      · rw [if_pos hopt]; simp
      · rw [if_neg hopt]

theorem dropColon_length_le (s : List Char) : (dropColon s).length ≤ s.length := by
  cases s with
  | nil => exact le_refl 0
  | cons c rest =>
      by_cases hc : c = ':'
      · subst hc
        rw [show dropColon (':' :: rest) = rest from rfl]
        simp
      · have hstep : dropColon (c :: rest) = c :: rest := by
          unfold dropColon
          split
          · rename_i heq
            injection heq with h1 _
            exact absurd h1 hc
          · rfl
        rw [hstep]

theorem matchCore_length_le (p : SectionPat) (s t : List Char)
    (h : matchCore p s = some t) : t.length ≤ s.length := by
  unfold matchCore at h
  by_cases hcore : foldStarts p.core s
  · rw [if_pos hcore] at h
    rcases Option.some.inj h with rfl
    calc ((dropColon
        ((dropCoreOpt p (s.drop p.core.length)).dropWhile isSpace)).dropWhile isSpace).length
        ≤ (dropColon
            ((dropCoreOpt p (s.drop p.core.length)).dropWhile isSpace)).length :=
          dropWhile_length_le _ _
      _ ≤ ((dropCoreOpt p (s.drop p.core.length)).dropWhile isSpace).length :=
          dropColon_length_le _
      _ ≤ (dropCoreOpt p (s.drop p.core.length)).length := dropWhile_length_le _ _
      _ ≤ (s.drop p.core.length).length := dropCoreOpt_length_le _ _
      _ ≤ s.length := by simp [List.length_drop]
  · rw [if_neg hcore] at h
    exact absurd h (by simp)

theorem tryWordCore_length_le (p : SectionPat) (t u : List Char)
    (h : tryWordCore p t = some u) : u.length ≤ t.length := by
  unfold tryWordCore at h
  set w : Option (List Char) := (if foldStarts p.word t then
      match t.drop p.word.length with
      | c :: rest =>
          if isSpace c then matchCore p ((c :: rest).dropWhile isSpace) else none
      | [] => none
    else none) with hw
  cases hwv : w with
  | none =>
      rw [hwv] at h
      exact matchCore_length_le p t u h
  | some v =>
      rw [hwv] at h
      have hv : v = u := Option.some.inj h
      subst hv
      by_cases hword : foldStarts p.word t
      · rw [hw, if_pos hword] at hwv
        cases ht : t.drop p.word.length with
        | nil => rw [ht] at hwv; exact absurd hwv (by simp)
        | cons c rest =>
            rw [ht] at hwv
            have hwv2 : (if isSpace c then
                matchCore p ((c :: rest).dropWhile isSpace) else none) = some v := hwv
            by_cases hsp : isSpace c
            · rw [if_pos hsp] at hwv2
              have h1 := matchCore_length_le _ _ _ hwv2
              have h2 : ((c :: rest).dropWhile isSpace).length ≤ (c :: rest).length :=
                dropWhile_length_le _ _
              have h3 : (c :: rest).length ≤ t.length := by
                rw [← ht]
                simp [List.length_drop]
              omega
            · rw [if_neg hsp] at hwv2
              exact absurd hwv2 (by simp)
      · rw [hw, if_neg hword] at hwv
        exact absurd hwv (by simp)

theorem matchAt_length_le (p : SectionPat) (s t : List Char)
    (h : matchAt p s = some t) : t.length ≤ s.length := by
  unfold matchAt at h
  set w : Option (List Char) := (if litStarts p.glyph s then
      tryWordCore p ((s.drop p.glyph.length).dropWhile isSpace) else none) with hw
  cases hwv : w with
  | none =>
      rw [hwv] at h
      exact tryWordCore_length_le p s t h
  | some v =>
      rw [hwv] at h
      rcases Option.some.inj h with rfl
      by_cases hg : litStarts p.glyph s
      · rw [hw, if_pos hg] at hwv
        have h1 := tryWordCore_length_le _ _ _ hwv
        have h2 : ((s.drop p.glyph.length).dropWhile isSpace).length ≤ s.length :=
          le_trans (dropWhile_length_le _ _) (by simp [List.length_drop])
        omega
      · rw [hw, if_neg hg] at hwv
        exact absurd hwv (by simp)

theorem searchPat_length_le (p : SectionPat) :
    ∀ s t, searchPat p s = some t → t.length ≤ s.length := by
  intro s
  induction s with
  | nil => intro t h; simp [searchPat] at h
  | cons c rest ih =>
      intro t h
      rw [show searchPat p (c :: rest) =
        (matchAt p (c :: rest)).orElse (fun _ => searchPat p rest) from rfl] at h
      cases hm : matchAt p (c :: rest) with
      | some u =>
          rw [hm] at h
          rcases Option.some.inj h with rfl
          exact matchAt_length_le _ _ _ hm
      | none =>
          rw [hm] at h
          have := ih t h
          simp only [List.length_cons]
          omega

theorem takeGroup_length_le (p : SectionPat) :
    ∀ t, (takeGroup p t).length ≤ t.length := by
  intro t
  induction t with
  | nil => simp [takeGroup]
  | cons c rest ih =>
      rw [show takeGroup p (c :: rest) =
        if (c = '\n' && rest.isEmpty) || stopHere p (c :: rest) then []
        else c :: takeGroup p rest from rfl]
      by_cases hc : (c = '\n' && rest.isEmpty) || stopHere p (c :: rest)
      · rw [if_pos hc]; simp
      · rw [if_neg hc]
        simp only [List.length_cons]
        omega

theorem sectionSearch_length_le (p : SectionPat) (safe grp : List Char)
    (h : sectionSearch p safe = some grp) : grp.length ≤ safe.length := by
  unfold sectionSearch at h
  cases hs : searchPat p safe with
  | none => rw [hs] at h; exact absurd h (by simp)
  | some t =>
      rw [hs] at h
      simp only [Option.map_some'] at h
      rcases Option.some.inj h with rfl
      exact le_trans (takeGroup_length_le p t) (searchPat_length_le p safe t hs)

theorem splitOnChar_length_le (sep : Char) :
    ∀ l, (splitOnChar sep l).length ≤ l.length + 1 := by
  intro l
  induction l with
  | nil => simp [splitOnChar]
  | cons c rest ih =>
      rw [show splitOnChar sep (c :: rest) =
        if c = sep then [] :: splitOnChar sep rest
        else match splitOnChar sep rest with
          | [] => [[c]]
          | p :: ps => (c :: p) :: ps from rfl]
      by_cases hc : c = sep
      · rw [if_pos hc]
        simp only [List.length_cons]
        omega
      · rw [if_neg hc]
        cases hr : splitOnChar sep rest with
        | nil => simp
        | cons p ps =>
            rw [hr] at ih
            simp only [List.length_cons] at *
            omega

theorem extractSection_length_le (p : SectionPat) (safe : List Char) :
    (extractSection p safe).length ≤ safe.length + 1 := by
  unfold extractSection
  cases hs : sectionSearch p safe with
  | none => simp
  | some grp =>
      calc (((splitOnChar '\n' grp).map pyStrip).filterMap (fun line =>
            if litStarts [extractSection.of_bullet] line
            then (taskSearch line).map pyStrip else none)).length
          ≤ ((splitOnChar '\n' grp).map pyStrip).length :=
            List.length_filterMap_le _ _
        _ = (splitOnChar '\n' grp).length := List.length_map _ _
        _ ≤ grp.length + 1 := splitOnChar_length_le '\n' grp
        _ ≤ safe.length + 1 := by
            have := sectionSearch_length_le p safe grp hs
            omega

theorem parse_tasks_counts_le (text : List Char) :
    (parse_tasks text).day.length ≤ 7 * text.length + 3 ∧
    (parse_tasks text).cant_do.length ≤ 7 * text.length + 3 ∧
    (parse_tasks text).evening.length ≤ 7 * text.length + 3 := by
  have hsafe := safeText_length_le text
  unfold parse_tasks
  refine ⟨?_, ?_, ?_⟩ <;>
    · first
      | (calc (extractSection dayPat (safeText text)).length
            ≤ (safeText text).length + 1 := extractSection_length_le _ _
          _ ≤ 7 * text.length + 3 := by omega)
      | (calc (extractSection cantPat (safeText text)).length
            ≤ (safeText text).length + 1 := extractSection_length_le _ _
          _ ≤ 7 * text.length + 3 := by omega)
      | (calc (extractSection eveningPat (safeText text)).length
            ≤ (safeText text).length + 1 := extractSection_length_le _ _
          _ ≤ 7 * text.length + 3 := by omega)

/-- Every identifier of any rendered keyboard whose section task counts
stay below `10 ^ 52` fits the byte budget. -/
theorem keyboard_ids_bytes_le (tasks : Tasks) (done : Done)
    (h1 : tasks.day.length ≤ 10 ^ 52) (h2 : tasks.cant_do.length ≤ 10 ^ 52)
    (h3 : tasks.evening.length ≤ 10 ^ 52) :
    ∀ d ∈ keyboardIds (keyboard tasks done),
      utf8Len d ≤ MAX_CALLBACK_DATA_BYTES := by
  intro d hd
  rcases mem_keyboardIds tasks done d hd with
    h | h | h | ⟨i, hi, rfl⟩ | ⟨i, hi, rfl⟩ | ⟨i, hi, rfl⟩
  · subst h; decide
  · subst h; decide
  · subst h; decide
  · exact toggleId_bytes_le _ (Or.inl rfl) i (by omega)
  · exact toggleId_bytes_le _ (Or.inr (Or.inl rfl)) i (by omega)
  · exact toggleId_bytes_le _ (Or.inr (Or.inr rfl)) i (by omega)

/-- C9: every control identifier the keyboard renderer produces - the
reserved `save`, `cancel`, `noop` and every `toggle_<tag>_<i>` - is at
most `MAX_CALLBACK_DATA_BYTES = 64` bytes in UTF-8: unconditionally for
the reserved identifiers, for any task lists whose per-section counts
stay below `10^52` (so for any index with at most 52 decimal digits),
and in particular for the keyboard rendered from any parsed message of
at most 4096 characters, whatever the completion state. -/
theorem claim_c9_callback_data_bytes :
    (utf8Len (String.toList "save") ≤ MAX_CALLBACK_DATA_BYTES ∧
     utf8Len (String.toList "cancel") ≤ MAX_CALLBACK_DATA_BYTES ∧
     utf8Len (String.toList "noop") ≤ MAX_CALLBACK_DATA_BYTES) ∧
    (∀ (tasks : Tasks) (done : Done),
      tasks.day.length ≤ 10 ^ 52 → tasks.cant_do.length ≤ 10 ^ 52 →
      tasks.evening.length ≤ 10 ^ 52 →
      ∀ d ∈ keyboardIds (keyboard tasks done),
        utf8Len d ≤ MAX_CALLBACK_DATA_BYTES) ∧
    (∀ (text : List Char) (done : Done), text.length ≤ 4096 →
      ∀ d ∈ keyboardIds (keyboard (parse_tasks text) done),
        utf8Len d ≤ MAX_CALLBACK_DATA_BYTES) := by
  refine ⟨⟨by decide, by decide, by decide⟩, keyboard_ids_bytes_le, ?_⟩
  intro text done htext d hd
  have hc := parse_tasks_counts_le text
  have hbound : 7 * text.length + 3 ≤ 10 ^ 52 := by
    have h52 : (28675 : ℕ) ≤ 10 ^ 52 := by
      calc (28675 : ℕ) ≤ 10 ^ 5 := by norm_num
        _ ≤ 10 ^ 52 := Nat.pow_le_pow_right (by omega) (by omega)
    omega
  exact keyboard_ids_bytes_le (parse_tasks text) done
    (by omega) (by omega) (by omega) d hd

/-- Closed instances of C9: the bound applied to the keyboard of a
one-task list and to the keyboard rendered from a parsed message. -/
theorem claim_c9_callback_data_bytes_witness :
    utf8Len (String.toList "toggle_day_0") ≤ MAX_CALLBACK_DATA_BYTES ∧
    utf8Len (String.toList "save") ≤ MAX_CALLBACK_DATA_BYTES :=
  ⟨claim_c9_callback_data_bytes.2.2
      (String.toList "Задачи:\n• Buy milk") emptyDone (by decide)
      (String.toList "toggle_day_0") (by decide),
   claim_c9_callback_data_bytes.1.1⟩

/-! ## Claim C1: the parse-render round trip -/

/-- C1 fails on the code.  For the input `"Задачи:\n• Buy milk"` the
parser finds the task `Buy milk` (under both the day and the evening
pattern, whose optional prefixes make them both match a bare
`Задачи:`); the renderer then emits the task lines prefixed with the
`⬜`/`✅` glyphs, while the parser's task pattern only accepts lines
whose stripped form starts with the bullet `•`, so re-parsing the
rendered checklist yields no tasks at all instead of recovering the
original ones.  The dispatcher's toggle path re-parses exactly such
rendered text, so this round trip is what the code itself relies on. -/
theorem claim_c1_roundtrip_code_bug :
    parse_tasks (String.toList "Задачи:\n• Buy milk") =
      ⟨[String.toList "Buy milk"], [], [String.toList "Buy milk"]⟩ ∧
    parse_tasks (message_text
        (parse_tasks (String.toList "Задачи:\n• Buy milk")) emptyDone) =
      ⟨[], [], []⟩ ∧
    parse_tasks (message_text
        (parse_tasks (String.toList "Задачи:\n• Buy milk")) emptyDone) ≠
      parse_tasks (String.toList "Задачи:\n• Buy milk") := by
  have h1 : parse_tasks (String.toList "Задачи:\n• Buy milk") =
      ⟨[String.toList "Buy milk"], [], [String.toList "Buy milk"]⟩ := by decide
  have h2 : parse_tasks (message_text
      (parse_tasks (String.toList "Задачи:\n• Buy milk")) emptyDone) =
      ⟨[], [], []⟩ := by decide
  refine ⟨h1, h2, ?_⟩
  rw [h2, h1]
  simp

/-- Closed instances of C2's conditional parts. -/
theorem claim_c2_rate_limiter_window_witness :
    RateLimiter.allow 0 (List.replicate 100 (0 : ℚ)) =
      (false, RateLimiter.prune 0 (List.replicate 100 0)) ∧
    RateLimiter.allow 5 [] = (true, RateLimiter.prune 5 [] ++ [5]) ∧
    ((RateLimiter.allow 3 [(1 : ℚ)]).2).length ≤ 100 ∧
    ((1 : ℚ) ∈ (RateLimiter.allow 3 [(1 : ℚ)]).2 → (3 : ℚ) - 1 < 60) :=
  ⟨claim_c2_rate_limiter_window.1 0 _
      (by rw [RateLimiter.prune_replicate_zero]; simp),
   claim_c2_rate_limiter_window.2.1 5 []
      (by simp [RateLimiter.prune]),
   claim_c2_rate_limiter_window.2.2.1 3 [1] (by simp),
   fun h => claim_c2_rate_limiter_window.2.2.2.1 3 [1] 1 h⟩

end TrackerBot
